import Mathlib

/-!
Verification of the budget-planning core of `superluminar-io/budget-alerts`
(`src/bin/init-budget-config.ts`, planner section, together with the types of
`src/lib/org/budget-config-loader.ts`).

The TypeScript planner is shallowly embedded below:
* JavaScript `Map`s become association lists with insertion-order preserving
  `assocSet` (mirroring `Map.set`: an existing key keeps its position, a new
  key is appended).
* `number | null` / optional fields become `Option Int` / `Option _`.
* Thrown `Error`s become `Except PlanError`; each throw site of the source has
  its own constructor carrying the interpolated data.
* The unbounded recursions of the source (`resolve`, `computeStatus`,
  `traverse`) are given explicit fuel.  A run that would recurse without bound
  in JavaScript (and die with a stack overflow / the cycle guard) exhausts the
  fuel and yields `PlanError.outOfFuel` respectively the embedded cycle error.
  The fuel supplied by the callers (`byId.length + 1` and similar) is large
  enough that any JavaScript run that terminates normally is reproduced
  exactly.
-/

namespace BudgetAlerts

/-- Insertion-ordered association list lookup, mirroring `Map.get`. -/
def assocGet : List (String × α) → String → Option α
  | [], _ => none
  | (k', v) :: rest, k => if k' = k then some v else assocGet rest k

/-- Insertion-ordered association list update, mirroring `Map.set`:
an existing key keeps its position and receives the new value, a new key is
appended at the end. -/
def assocSet (m : List (String × α)) (k : String) (v : α) : List (String × α) :=
  match m with
  | [] => [(k, v)]
  | (k', v') :: rest =>
    if k' = k then (k, v) :: rest else (k', v') :: assocSet rest k v

/-- Keys of an association list, in insertion order (mirroring `Map.keys`). -/
def assocKeys (m : List (String × α)) : List String := m.map (·.1)

/-- `lib/org/budget-planner.ts`: `interface OuNode`. -/
structure OuNode where
  id : String
  parentId : Option String
  deriving DecidableEq, Repr

/-- `lib/org/budget-planner.ts`: `interface OuTree`. -/
structure OuTree where
  byId : List (String × OuNode)
  children : List (String × List String)
  roots : List String
  deriving DecidableEq, Repr

/-- `lib/org/budget-config-loader.ts`: `interface OuBudgetConfigEntry`.
`amount : Option Int` models `number | null` (`none` = `null`). -/
structure OuBudgetConfigEntry where
  amount : Option Int
  currency : Option String
  thresholds : Option (List Int)
  deriving DecidableEq, Repr

/-- The `default` field of `BudgetConfig`. -/
structure BudgetDefault where
  amount : Option Int
  currency : String
  thresholds : Option (List Int)
  deriving DecidableEq, Repr

/-- `lib/org/budget-config-loader.ts`: `interface BudgetConfig`.
`organizationalUnits` is a `Partial Record`, i.e. an optional map whose
values may themselves be `undefined`; it is modelled as an optional
association list with optional values. -/
structure BudgetConfig where
  defaultBudget : BudgetDefault
  organizationalUnits : Option (List (String × Option OuBudgetConfigEntry))
  deriving DecidableEq, Repr

/-- `lib/org/budget-planner.ts`: `interface EffectiveBudget`. -/
structure EffectiveBudget where
  amount : Option Int
  currency : String
  thresholds : Option (List Int)
  deriving DecidableEq, Repr

/-- `lib/org/budget-planner.ts`: `interface OuBudgetAttachment`. -/
structure OuBudgetAttachment where
  ouId : String
  amount : Int
  currency : String
  thresholds : Option (List Int)
  deriving DecidableEq, Repr

/-- `lib/org/budget-config-loader.ts`: `export const DISABLED_CURRENCY = 'NONE'`. -/
def DISABLED_CURRENCY : String := "NONE"

instance {ε α : Type} [DecidableEq ε] [DecidableEq α] : DecidableEq (Except ε α) :=
  fun a b =>
    match a, b with
    | .ok x, .ok y =>
      if h : x = y then .isTrue (by rw [h]) else .isFalse (fun he => h (by injection he))
    | .error x, .error y =>
      if h : x = y then .isTrue (by rw [h]) else .isFalse (fun he => h (by injection he))
    | .ok _, .error _ => .isFalse (fun he => Except.noConfusion he)
    | .error _, .ok _ => .isFalse (fun he => Except.noConfusion he)

/-- One constructor per throw site of the planner, carrying the data that the
source interpolates into the message.  `outOfFuel` stands for the stack
exhaustion of an unboundedly recursing JavaScript run. -/
inductive PlanError where
  | structural (roots : List String)
  | undefinedEntry (ouId : String)
  | unknownConfigOu (ouId : String)
  | invalidAmount (ouId : String) (amount : Int)
  | unknownOuId (ouId : String)
  | cycleAt (ouId : String)
  | outOfFuel
  deriving DecidableEq, Repr

/-- The loop body of `buildOuTree` (lines 522-533), recursing over the input
list while threading the `byId`, `children` and `roots` accumulators. -/
def buildOuTreeAux :
    List OuNode → List (String × OuNode) → List (String × List String) → List String →
      List (String × OuNode) × List (String × List String) × List String
  | [], byId, children, roots => (byId, children, roots)
  | ou :: rest, byId, children, roots =>
    if ou.id = "" then buildOuTreeAux rest byId children roots
    else
      let byId := assocSet byId ou.id ou
      match ou.parentId with
      | none => buildOuTreeAux rest byId children (roots ++ [ou.id])
      | some pid =>
        let arr := (assocGet children pid).getD []
        buildOuTreeAux rest byId (assocSet children pid (arr ++ [ou.id])) roots

/-- `buildOuTree` (`init-budget-config.ts` lines 517-539).  Entries with a
falsy (empty) id are skipped; `byId.set` lets the last occurrence of an id
win; each kept entry with a non-null `parentId` is appended to its parent's
child list; each kept entry with `parentId === null` is appended to `roots`;
a root count other than one throws. -/
def buildOuTree (ous : List OuNode) : Except PlanError OuTree :=
  let (byId, children, roots) := buildOuTreeAux ous [] [] []
  if roots.length ≠ 1 then
    throw (PlanError.structural roots)
  else
    pure { byId := byId, children := children, roots := roots }

/-- The entry loop of `validateBudgetConfig` (lines 543-555).  Iterates the
entries in order; for each entry the checks run in source order: undefined
entry, unknown OU id, negative amount. -/
def validateEntries (knownOus : List String) :
    List (String × Option OuBudgetConfigEntry) → Except PlanError Unit
  | [] => pure ()
  | (ouId, entry?) :: rest => do
    match entry? with
    | none => throw (PlanError.undefinedEntry ouId)
    | some entry =>
      if ouId ∉ knownOus then
        throw (PlanError.unknownConfigOu ouId)
      else
        match entry.amount with
        | some a =>
          if a < 0 then throw (PlanError.invalidAmount ouId a)
          else validateEntries knownOus rest
        | none => validateEntries knownOus rest

/-- `validateBudgetConfig` (lines 541-557): a missing `organizationalUnits`
map passes trivially, otherwise every entry is checked in order. -/
def validateBudgetConfig (config : BudgetConfig) (knownOus : List String) :
    Except PlanError Unit :=
  match config.organizationalUnits with
  | none => pure ()
  | some entries => validateEntries knownOus entries

/-- The budget built from `config.default` (the two identical literals at
lines 585-589 and 619-623). -/
def defaultEffectiveBudget (config : BudgetConfig) : EffectiveBudget :=
  { amount := config.defaultBudget.amount
    currency := config.defaultBudget.currency
    thresholds := config.defaultBudget.thresholds }

/-- The inner `resolve` of `computeEffectiveBudgets` (lines 575-626),
embedded without its memo table: the memo only caches the values of this
deterministic, effect-free recursion, so the per-id value (and the thrown
error) is unchanged.  `fuel` bounds the parent-chain recursion depth; a
chain that never terminates in JavaScript (a parent cycle) exhausts it.

Branch order follows the source: unknown id, absent `organizationalUnits`,
truthy `amount` (a non-zero number), `amount === null`, parent recursion,
top-level default. -/
def resolveBudget (tree : OuTree) (config : BudgetConfig) :
    Nat → String → Except PlanError EffectiveBudget
  | 0, _ => throw PlanError.outOfFuel
  | fuel + 1, ouId =>
    -- lines 612-625: inherit from the parent, or fall back to the default.
    let inherit : OuNode → Except PlanError EffectiveBudget := fun ou =>
      match ou.parentId with
      | some pid => resolveBudget tree config fuel pid
      | none => pure (defaultEffectiveBudget config)
    match assocGet tree.byId ouId with
    | none => throw (PlanError.unknownOuId ouId)
    | some ou =>
      match config.organizationalUnits with
      | none => pure (defaultEffectiveBudget config)
      | some entries =>
        let cfgEntry := (assocGet entries ouId).join
        match cfgEntry with
        | some entry =>
          match entry.amount with
          | some a =>
            if a ≠ 0 then
              pure { amount := some a
                     currency := entry.currency.getD config.defaultBudget.currency
                     thresholds := entry.thresholds <|> config.defaultBudget.thresholds }
            else
              inherit ou
          | none =>
            -- Explicitly disabled budget.
            pure { amount := none, currency := DISABLED_CURRENCY, thresholds := none }
        | none => inherit ou

/-- `computeEffectiveBudgets` (lines 569-636): validate, then resolve every
id of `byId` (the memoised map finally holds exactly one entry per `byId`
key, each equal to the pure `resolveBudget` value). -/
def computeEffectiveBudgets (tree : OuTree) (config : BudgetConfig) :
    Except PlanError (List (String × EffectiveBudget)) := do
  validateBudgetConfig config (assocKeys tree.byId)
  (assocKeys tree.byId).mapM
    (fun ouId => do
      let eb ← resolveBudget tree config (tree.byId.length + 1) ouId
      pure (ouId, eb))

/-- `equalBudgets` (lines 653-664) restricted to arguments that are either a
genuine `EffectiveBudget` or `undefined` (`none`) — the only values it is
applied to in this program.  `isEffectiveBudget` rejects `undefined`, so any
`none` argument yields `false`; otherwise `amount`, `currency` and the
`?? []`-defaulted `thresholds` are compared. -/
def equalBudgets (a b : Option EffectiveBudget) : Bool :=
  match a, b with
  | some a, some b =>
    a.amount == b.amount && a.currency == b.currency &&
      (a.thresholds.getD []) == (b.thresholds.getD [])
  | _, _ => false

/-- `type Status<V>` (line 673); `uniform` always stores the node's own
value `effectiveBudgets.get(id)`, which may be `undefined` (`none`). -/
inductive StatusOf (V : Type) where
  | mixed
  | uniform (value : Option V)
  deriving DecidableEq, Repr

/-- `isUniform` (lines 677-679). -/
def StatusOf.isUniform : StatusOf V → Bool
  | .mixed => false
  | .uniform _ => true

/-- `StatusOf.value` of a uniform status (`childStatus.value`). -/
def StatusOf.valueOf : StatusOf V → Option V
  | .mixed => none
  | .uniform v => v

/-- The child loop of `computeStatus` (lines 712-724), abstracted over the
recursive call on a child (`recur`): a mixed child, or a uniform child whose
value differs from `myVal`, memoises and returns `mixed` at once without
touching the remaining children; otherwise the loop continues, and an
exhausted list memoises and returns `uniform myVal`. -/
def statusChildLoop (equals : Option V → Option V → Bool)
    (recur : List (String × StatusOf V) → String →
      Except PlanError (StatusOf V × List (String × StatusOf V)))
    (myVal : Option V) (id : String) :
    List String → List (String × StatusOf V) →
      Except PlanError (StatusOf V × List (String × StatusOf V))
  | [], statusById =>
    pure (StatusOf.uniform myVal, assocSet statusById id (StatusOf.uniform myVal))
  | childId :: rest, statusById => do
    let (childStatus, statusById) ← recur statusById childId
    match childStatus with
    | .mixed => pure (StatusOf.mixed, assocSet statusById id StatusOf.mixed)
    | .uniform childVal =>
      if equals childVal myVal then
        statusChildLoop equals recur myVal id rest statusById
      else
        pure (StatusOf.mixed, assocSet statusById id StatusOf.mixed)

/-- The inner `computeStatus` of `maximalUniformSubtreeRoots`
(lines 697-730), embedded with its memo (`statusById`, an insertion-ordered
association list) and `visiting` set.  `fuel` bounds the recursion depth;
the callers supply more fuel than any terminating run needs, so `outOfFuel`
only stands for a stack overflow of the source. -/
def computeStatus (tree : OuTree) (vals : String → Option V)
    (equals : Option V → Option V → Bool) :
    Nat → List (String × StatusOf V) → List String → String →
      Except PlanError (StatusOf V × List (String × StatusOf V))
  | 0, _, _, _ => throw PlanError.outOfFuel
  | fuel + 1, statusById, visiting, id =>
    match assocGet statusById id with
    | some cached => pure (cached, statusById)
    | none =>
      if id ∈ visiting then
        throw (PlanError.cycleAt id)
      else
        let myVal := vals id
        let childIds := (assocGet tree.children id).getD []
        statusChildLoop equals
          (fun statusById childId =>
            computeStatus tree vals equals fuel statusById (visiting ++ [id]) childId)
          myVal id childIds statusById

/-- `maximalUniformSubtreeRoots` (lines 686-759): compute the status of
every root and every `byId` key (sharing the memo), then collect, in memo
insertion order, the uniform ids whose parent is absent, missing a status,
mixed, or uniform with a different value. -/
def maximalUniformSubtreeRoots (tree : OuTree) (vals : String → Option V)
    (equals : Option V → Option V → Bool) : Except PlanError (List String) := do
  let fuel := tree.byId.length + 2
  let statusById ← (tree.roots ++ assocKeys tree.byId).foldlM
    (fun statusById id => do
      let (_, statusById) ← computeStatus tree vals equals fuel statusById [] id
      pure statusById)
    []
  pure (statusById.foldl
    (fun result p =>
      let (id, st) := p
      match st with
      | .mixed => result
      | .uniform v =>
        let parentId := ((assocGet tree.byId id).map (·.parentId)).join
        match parentId with
        | none => result ++ [id]
        | some pid =>
          match assocGet statusById pid with
          | none => result ++ [id]
          | some .mixed => result ++ [id]
          | some (.uniform pv) =>
            if equals pv v then result else result ++ [id])
    [])

/-- The inner `traverse` of `selectOuBudgetAttachments` (lines 784-804).
`none` is returned when the recursion runs out of fuel (a stack overflow of
the source); `budget.amount && budget.amount > 0` is the JavaScript
truthiness test followed by the comparison. -/
def traverseAttach (tree : OuTree) (effectiveBudgets : List (String × EffectiveBudget))
    (homogeneousSubtrees : List String) :
    Nat → String → Bool → Option (List OuBudgetAttachment)
  | 0, _, _ => none
  | fuel + 1, ouId, ancestorSelected =>
    let canCoverSubtree := ouId ∈ homogeneousSubtrees
    if canCoverSubtree && !ancestorSelected then
      match assocGet effectiveBudgets ouId with
      | some budget =>
        match budget.amount with
        | some a => if a ≠ 0 && a > 0 then
            some [{ ouId := ouId, amount := a, currency := budget.currency,
                    thresholds := budget.thresholds }]
          else some []
        | none => some []
      | none => some []   -- `effectiveBudgets.get(ouId)!` on a missing id: unreachable in runs we model
    else
      let childIds := (assocGet tree.children ouId).getD []
      childIds.foldlM
        (fun acc childId => do
          let atts ← traverseAttach tree effectiveBudgets homogeneousSubtrees
            fuel childId (ancestorSelected || canCoverSubtree)
          pure (acc ++ atts))
        []

/-- `selectOuBudgetAttachments` (lines 777-811). -/
def selectOuBudgetAttachments (tree : OuTree)
    (effectiveBudgets : List (String × EffectiveBudget))
    (homogeneousSubtrees : List String) : Except PlanError (List OuBudgetAttachment) :=
  tree.roots.foldlM
    (fun acc rootOuId =>
      match traverseAttach tree effectiveBudgets homogeneousSubtrees
        (tree.byId.length + 2) rootOuId false with
      | some atts => pure (acc ++ atts)
      | none => throw PlanError.outOfFuel)
    []

/-- `computeOuBudgetAttachments` (lines 823-831): the whole pipeline. -/
def computeOuBudgetAttachments (ous : List OuNode) (config : BudgetConfig) :
    Except PlanError (List OuBudgetAttachment) := do
  let tree ← buildOuTree ous
  let effectiveBudgets ← computeEffectiveBudgets tree config
  let homogeneous ← maximalUniformSubtreeRoots tree
    (fun id => assocGet effectiveBudgets id) equalBudgets
  selectOuBudgetAttachments tree effectiveBudgets homogeneous

/-! ## Association list lemmas -/

theorem assocGet_mem_keys {m : List (String × α)} {k : String} {v : α}
    (h : assocGet m k = some v) : k ∈ assocKeys m := by
  induction m with
  | nil => simp [assocGet] at h
  | cons p rest ih =>
    obtain ⟨k', v'⟩ := p
    show k ∈ k' :: assocKeys rest
    by_cases hk : k' = k
    · exact hk ▸ List.mem_cons_self _ _
    · simp only [assocGet, if_neg hk] at h
      exact List.mem_cons_of_mem _ (ih h)

theorem assocGet_eq_none_iff {m : List (String × α)} {k : String} :
    assocGet m k = none ↔ k ∉ assocKeys m := by
  induction m with
  | nil => simp [assocGet, assocKeys]
  | cons p rest ih =>
    obtain ⟨k', v'⟩ := p
    by_cases hk : k' = k
    · simp [assocGet, hk, assocKeys]
    · simp [assocGet, hk, assocKeys, ih, Ne.symm hk]

theorem assocGet_isSome_of_mem_keys {m : List (String × α)} {k : String}
    (h : k ∈ assocKeys m) : ∃ v, assocGet m k = some v := by
  cases hv : assocGet m k with
  | none => exact absurd (assocGet_eq_none_iff.mp hv) (by simp [h])
  | some v => exact ⟨v, rfl⟩

theorem assocGet_assocSet_self (m : List (String × α)) (k : String) (v : α) :
    assocGet (assocSet m k v) k = some v := by
  induction m with
  | nil => simp [assocSet, assocGet]
  | cons p rest ih =>
    obtain ⟨k', v'⟩ := p
    by_cases hk : k' = k
    · simp [assocSet, hk, assocGet]
    · simp [assocSet, hk, assocGet, ih]

theorem assocGet_assocSet_ne {m : List (String × α)} {k k' : String} {v : α}
    (h : k' ≠ k) : assocGet (assocSet m k v) k' = assocGet m k' := by
  induction m with
  | nil => simp [assocSet, assocGet, Ne.symm h]
  | cons p rest ih =>
    obtain ⟨k₀, v₀⟩ := p
    by_cases hk : k₀ = k
    · simp [assocSet, hk, assocGet, Ne.symm h]
    · simp only [assocSet, if_neg hk]
      by_cases hk' : k₀ = k' <;> simp [assocGet, hk', ih]

theorem assocKeys_assocSet_of_mem {m : List (String × α)} {k : String} (v : α)
    (h : k ∈ assocKeys m) : assocKeys (assocSet m k v) = assocKeys m := by
  induction m with
  | nil => simp [assocKeys] at h
  | cons p rest ih =>
    obtain ⟨k', v'⟩ := p
    by_cases hk : k' = k
    · simp [assocSet, hk, assocKeys]
    · have h' : k ∈ assocKeys rest := by
        rcases List.mem_cons.mp (show k ∈ k' :: assocKeys rest from h) with h' | h'
        · exact absurd h'.symm hk
        · exact h'
      simp only [assocSet, if_neg hk]
      show k' :: assocKeys (assocSet rest k v) = k' :: assocKeys rest
      rw [ih h']

theorem assocKeys_assocSet_of_not_mem {m : List (String × α)} {k : String} (v : α)
    (h : k ∉ assocKeys m) : assocKeys (assocSet m k v) = assocKeys m ++ [k] := by
  induction m with
  | nil => simp [assocSet, assocKeys]
  | cons p rest ih =>
    obtain ⟨k', v'⟩ := p
    have hne : k' ≠ k := fun he => h (he ▸ List.mem_cons_self _ _)
    have h' : k ∉ assocKeys rest := fun hm => h (List.mem_cons_of_mem _ hm)
    simp only [assocSet, if_neg hne]
    show k' :: assocKeys (assocSet rest k v) = (k' :: assocKeys rest) ++ [k]
    rw [ih h', List.cons_append]

theorem assocKeys_assocSet_nodup {m : List (String × α)} {k : String} (v : α)
    (h : (assocKeys m).Nodup) : (assocKeys (assocSet m k v)).Nodup := by
  by_cases hk : k ∈ assocKeys m
  · rw [assocKeys_assocSet_of_mem v hk]; exact h
  · rw [assocKeys_assocSet_of_not_mem v hk]
    simpa [List.nodup_append, h] using hk

theorem mem_of_assocGet_eq_some {m : List (String × α)} {k : String} {v : α}
    (h : assocGet m k = some v) : (k, v) ∈ m := by
  induction m with
  | nil => simp [assocGet] at h
  | cons p rest ih =>
    obtain ⟨k', v'⟩ := p
    by_cases hk : k' = k
    · simp only [assocGet, if_pos hk] at h
      injection h with h
      subst hk
      subst h
      exact List.mem_cons_self _ _
    · simp only [assocGet, if_neg hk] at h
      exact List.mem_cons_of_mem _ (ih h)

theorem assocGet_of_mem_nodup {m : List (String × α)} {k : String} {v : α}
    (hn : (assocKeys m).Nodup) (h : (k, v) ∈ m) : assocGet m k = some v := by
  induction m with
  | nil => simp at h
  | cons p rest ih =>
    obtain ⟨k', v'⟩ := p
    simp only [assocKeys, List.map_cons, List.nodup_cons] at hn
    rcases List.mem_cons.mp h with h | h
    · injection h with h1 h2
      simp [assocGet, h1, h2]
    · have hk : k' ≠ k := by
        intro he
        subst he
        exact hn.1 (List.mem_map_of_mem Prod.fst h)
      simp only [assocGet, if_neg hk]
      exact ih hn.2 h

/-! ## `buildOuTree` characterization (tree builder, spec section 4.1) -/

/-- The last kept occurrence of id `k` in the input (`byId.set`: last wins). -/
def lastOcc (ous : List OuNode) (k : String) : Option OuNode :=
  ous.reverse.find? (fun ou => ou.id == k)

/-- The ids of the kept occurrences whose `parentId` is `p`, in input order. -/
def childOccs (ous : List OuNode) (p : String) : List String :=
  (ous.filter (fun ou => ou.id != "" && ou.parentId == some p)).map (·.id)

/-- The ids of the kept occurrences whose `parentId` is null, in input order. -/
def rootOccs (ous : List OuNode) : List String :=
  (ous.filter (fun ou => ou.id != "" && ou.parentId == none)).map (·.id)

theorem lastOcc_cons (ou : OuNode) (rest : List OuNode) (k : String) :
    lastOcc (ou :: rest) k = (lastOcc rest k).or (if ou.id = k then some ou else none) := by
  simp only [lastOcc, List.reverse_cons, List.find?_append]
  congr 1
  by_cases h : ou.id = k <;> simp [List.find?_cons, h]

theorem buildOuTreeAux_byId_get (ous : List OuNode) :
    ∀ b c r (k : String), k ≠ "" →
      assocGet (buildOuTreeAux ous b c r).1 k = (lastOcc ous k).or (assocGet b k) := by
  induction ous with
  | nil => intro b c r k _; simp [buildOuTreeAux, lastOcc]
  | cons ou rest ih =>
    intro b c r k hk
    rw [lastOcc_cons]
    by_cases hid : ou.id = ""
    · have hik : ("" : String) ≠ k := Ne.symm hk
      simp [buildOuTreeAux, hid, hik, Option.or_none, ih _ _ _ _ hk]
    · have hstep : (buildOuTreeAux (ou :: rest) b c r).1 =
          (buildOuTreeAux rest (assocSet b ou.id ou)
            (match ou.parentId with
             | none => c
             | some pid => assocSet c pid (((assocGet c pid).getD []) ++ [ou.id]))
            (match ou.parentId with
             | none => r ++ [ou.id]
             | some _ => r)).1 := by
        cases hp : ou.parentId <;> simp [buildOuTreeAux, hid, hp]
      rw [hstep, ih _ _ _ _ hk]
      by_cases hik : ou.id = k
      · subst hik
        rw [assocGet_assocSet_self]
        simp only [if_pos rfl]
        cases lastOcc rest ou.id <;> simp [Option.or]
      · rw [assocGet_assocSet_ne (Ne.symm hik)]
        simp [hik]

theorem buildOuTreeAux_byId_empty (ous : List OuNode) :
    ∀ b c r, assocGet (buildOuTreeAux ous b c r).1 "" = assocGet b "" := by
  induction ous with
  | nil => intro b c r; simp [buildOuTreeAux]
  | cons ou rest ih =>
    intro b c r
    by_cases hid : ou.id = ""
    · simp [buildOuTreeAux, hid, ih]
    · have hset : assocGet (assocSet b ou.id ou) "" = assocGet b "" :=
        assocGet_assocSet_ne (Ne.symm hid)
      cases hp : ou.parentId <;> simp [buildOuTreeAux, hid, hp, ih, hset]

theorem buildOuTreeAux_children_get (ous : List OuNode) :
    ∀ b c r (p : String),
      (assocGet (buildOuTreeAux ous b c r).2.1 p).getD [] =
        ((assocGet c p).getD []) ++ childOccs ous p := by
  induction ous with
  | nil => intro b c r p; simp [buildOuTreeAux, childOccs]
  | cons ou rest ih =>
    intro b c r p
    by_cases hid : ou.id = ""
    · simp [buildOuTreeAux, hid, ih, childOccs, hid]
    · cases hp : ou.parentId with
      | none => simp [buildOuTreeAux, hid, hp, ih, childOccs, List.filter_cons]
      | some pid =>
        rw [show (buildOuTreeAux (ou :: rest) b c r) =
            buildOuTreeAux rest (assocSet b ou.id ou)
              (assocSet c pid (((assocGet c pid).getD []) ++ [ou.id])) r by
          simp [buildOuTreeAux, hid, hp]]
        rw [ih]
        by_cases hpp : pid = p
        · subst hpp
          rw [assocGet_assocSet_self]
          simp [childOccs, hid, hp, List.filter_cons]
        · rw [assocGet_assocSet_ne (Ne.symm hpp)]
          simp [childOccs, hid, hp, List.filter_cons, hpp]

theorem buildOuTreeAux_roots (ous : List OuNode) :
    ∀ b c r, (buildOuTreeAux ous b c r).2.2 = r ++ rootOccs ous := by
  induction ous with
  | nil => intro b c r; simp [buildOuTreeAux, rootOccs]
  | cons ou rest ih =>
    intro b c r
    by_cases hid : ou.id = ""
    · simp [buildOuTreeAux, hid, ih, rootOccs, hid]
    · cases hp : ou.parentId with
      | none => simp [buildOuTreeAux, hid, hp, ih, rootOccs, List.filter_cons]
      | some pid => simp [buildOuTreeAux, hid, hp, ih, rootOccs, List.filter_cons]

theorem buildOuTreeAux_byId_nodup (ous : List OuNode) :
    ∀ b c r, (assocKeys b).Nodup → (assocKeys (buildOuTreeAux ous b c r).1).Nodup := by
  induction ous with
  | nil => intro b c r h; simpa [buildOuTreeAux] using h
  | cons ou rest ih =>
    intro b c r h
    by_cases hid : ou.id = ""
    · simpa [buildOuTreeAux, hid] using ih _ _ _ h
    · cases hp : ou.parentId with
      | none => simpa [buildOuTreeAux, hid, hp] using ih _ _ _ (assocKeys_assocSet_nodup _ h)
      | some pid => simpa [buildOuTreeAux, hid, hp] using ih _ _ _ (assocKeys_assocSet_nodup _ h)

theorem buildOuTree_eq (ous : List OuNode) :
    buildOuTree ous =
      if (rootOccs ous).length ≠ 1 then
        Except.error (PlanError.structural (rootOccs ous))
      else
        Except.ok { byId := (buildOuTreeAux ous [] [] []).1,
                    children := (buildOuTreeAux ous [] [] []).2.1,
                    roots := rootOccs ous } := by
  have hroots : (buildOuTreeAux ous [] [] []).2.2 = rootOccs ous := by
    simpa using buildOuTreeAux_roots ous [] [] []
  rcases haux : buildOuTreeAux ous [] [] [] with ⟨b, c, r⟩
  rw [haux] at hroots
  simp only at hroots
  subst hroots
  simp only [buildOuTree, haux]
  by_cases hl : (rootOccs ous).length = 1 <;> simp [hl] <;> rfl

theorem buildOuTree_ok_byId {ous : List OuNode} {t : OuTree}
    (h : buildOuTree ous = .ok t) :
    ∀ k, k ≠ "" → assocGet t.byId k = lastOcc ous k := by
  rw [buildOuTree_eq] at h
  by_cases hl : (rootOccs ous).length = 1
  · simp [hl] at h
    intro k hk
    have := buildOuTreeAux_byId_get ous [] [] [] k hk
    simp [assocGet] at this
    rw [← h]
    simpa [Option.or_none] using this
  · simp [hl] at h

theorem buildOuTree_ok_byId_empty {ous : List OuNode} {t : OuTree}
    (h : buildOuTree ous = .ok t) : assocGet t.byId "" = none := by
  rw [buildOuTree_eq] at h
  by_cases hl : (rootOccs ous).length = 1
  · simp [hl] at h
    have := buildOuTreeAux_byId_empty ous [] [] []
    rw [← h]
    simpa [assocGet] using this
  · simp [hl] at h

theorem buildOuTree_ok_children {ous : List OuNode} {t : OuTree}
    (h : buildOuTree ous = .ok t) :
    ∀ p, (assocGet t.children p).getD [] = childOccs ous p := by
  rw [buildOuTree_eq] at h
  by_cases hl : (rootOccs ous).length = 1
  · simp [hl] at h
    intro p
    have := buildOuTreeAux_children_get ous [] [] [] p
    rw [← h]
    simpa [assocGet] using this
  · simp [hl] at h

theorem buildOuTree_ok_roots {ous : List OuNode} {t : OuTree}
    (h : buildOuTree ous = .ok t) : t.roots = rootOccs ous ∧ t.roots.length = 1 := by
  rw [buildOuTree_eq] at h
  by_cases hl : (rootOccs ous).length = 1
  · simp [hl] at h
    rw [← h]
    exact ⟨rfl, hl⟩
  · simp [hl] at h

theorem buildOuTree_ok_byId_nodup {ous : List OuNode} {t : OuTree}
    (h : buildOuTree ous = .ok t) : (assocKeys t.byId).Nodup := by
  rw [buildOuTree_eq] at h
  by_cases hl : (rootOccs ous).length = 1
  · simp [hl] at h
    rw [← h]
    exact buildOuTreeAux_byId_nodup ous [] [] [] (by simp [assocKeys])
  · simp [hl] at h

theorem buildOuTree_error_iff (ous : List OuNode) :
    (∃ e, buildOuTree ous = .error e) ↔ (rootOccs ous).length ≠ 1 := by
  rw [buildOuTree_eq]
  by_cases hl : (rootOccs ous).length = 1 <;> simp [hl]

theorem buildOuTree_error_val {ous : List OuNode} {e : PlanError}
    (h : buildOuTree ous = .error e) : e = PlanError.structural (rootOccs ous) := by
  rw [buildOuTree_eq] at h
  by_cases hl : (rootOccs ous).length = 1 <;> simp [hl] at h
  exact h.symm

/-- C7: `buildOuTree` silently skips entries with an empty id; for the kept
entries `byId` maps each id to its last occurrence, the empty id is never a
key, each parent's child list is the kept occurrences with that parent in
input order, the function fails (with the structural error listing the
collected roots) exactly when the number of kept null-parent entries is not
one, and a successful result has a one-element roots list.  The function is
pure, so the input is unchanged by construction. -/
theorem buildOuTree_characterization (ous : List OuNode) :
    (∀ t, buildOuTree ous = .ok t →
       (∀ k, k ≠ "" → assocGet t.byId k = lastOcc ous k) ∧
       assocGet t.byId "" = none ∧
       (∀ p, (assocGet t.children p).getD [] = childOccs ous p) ∧
       t.roots = rootOccs ous ∧ t.roots.length = 1) ∧
    ((∃ e, buildOuTree ous = .error e) ↔ (rootOccs ous).length ≠ 1) ∧
    (∀ e, buildOuTree ous = .error e → e = PlanError.structural (rootOccs ous)) :=
  ⟨fun _ h => ⟨buildOuTree_ok_byId h, buildOuTree_ok_byId_empty h,
     buildOuTree_ok_children h, (buildOuTree_ok_roots h).1, (buildOuTree_ok_roots h).2⟩,
   buildOuTree_error_iff ous,
   fun _ h => buildOuTree_error_val h⟩

/-- Input with an empty id, and the id `a` twice under the same parent. -/
def exC7Ous : List OuNode :=
  [⟨"r", none⟩, ⟨"", some "r"⟩, ⟨"a", some "r"⟩, ⟨"a", some "r"⟩]

/-- The tree `buildOuTree` produces for `exC7Ous`. -/
def exC7Tree : OuTree :=
  { byId := [("r", ⟨"r", none⟩), ("a", ⟨"a", some "r"⟩)],
    children := [("r", ["a", "a"])],
    roots := ["r"] }

theorem buildOuTree_characterization_witness :
    buildOuTree exC7Ous = .ok exC7Tree ∧
    assocGet exC7Tree.byId "a" = lastOcc exC7Ous "a" ∧
    assocGet exC7Tree.byId "" = none ∧
    (assocGet exC7Tree.children "r").getD [] = childOccs exC7Ous "r" ∧
    exC7Tree.roots.length = 1 := by
  have h := (buildOuTree_characterization exC7Ous).1 exC7Tree (by rfl)
  exact ⟨by decide, h.1 "a" (by decide), h.2.1, h.2.2.1 "r", h.2.2.2.2⟩

/-- Duplicate-id input: `a` occurs twice under the root. -/
def exDupOus : List OuNode := [⟨"r", none⟩, ⟨"a", some "r"⟩, ⟨"a", some "r"⟩]

/-- Config giving `a` its own budget so that the root is mixed and `a` is a
maximal uniform subtree root, reached once per adjacency occurrence. -/
def exDupCfg : BudgetConfig :=
  { defaultBudget := { amount := some 1, currency := "USD", thresholds := none },
    organizationalUnits := some [("a", some { amount := some 2, currency := none, thresholds := none })] }

/-- C10: with duplicate occurrences of one id, `byId` keeps the last
occurrence, the children adjacency records the id once per kept occurrence
with a non-null parent (so traversal reaches it once per occurrence — on the
concrete duplicate input the planner emits the same attachment twice), and
every kept null-parent occurrence counts separately toward the
exactly-one-root check. -/
theorem buildOuTree_duplicate_ids (ous : List OuNode) :
    (∀ t, buildOuTree ous = .ok t →
       (∀ k, k ≠ "" → assocGet t.byId k = lastOcc ous k) ∧
       (∀ p, (assocGet t.children p).getD [] = childOccs ous p)) ∧
    ((∃ e, buildOuTree ous = .error e) ↔
       ((ous.filter (fun ou => ou.id != "" && ou.parentId == none)).length ≠ 1)) ∧
    computeOuBudgetAttachments exDupOus exDupCfg =
      .ok [{ ouId := "a", amount := 2, currency := "USD", thresholds := none },
           { ouId := "a", amount := 2, currency := "USD", thresholds := none }] := by
  refine ⟨fun t h => ⟨buildOuTree_ok_byId h, buildOuTree_ok_children h⟩, ?_, by rfl⟩
  have : (rootOccs ous).length =
      (ous.filter (fun ou => ou.id != "" && ou.parentId == none)).length := by
    simp [rootOccs]
  rw [buildOuTree_error_iff, this]

theorem buildOuTree_duplicate_ids_witness :
    (∀ k, k ≠ "" → assocGet exC7Tree.byId k = lastOcc exC7Ous k) ∧
    ((exC7Ous.filter (fun ou => ou.id != "" && ou.parentId == none)).length = 1) := by
  refine ⟨fun k hk => ((buildOuTree_duplicate_ids exC7Ous).1 exC7Tree (by rfl)).1 k hk, by decide⟩

/-! ## `validateBudgetConfig` (config validator, spec section 4.2) -/

/-- The per-entry validity predicate: the value is defined, the key is a
known OU id, and a numeric amount is non-negative (`null` is valid). -/
def entryValid (knownOus : List String) (ouId : String)
    (entry? : Option OuBudgetConfigEntry) : Prop :=
  ∃ entry, entry? = some entry ∧ ouId ∈ knownOus ∧ ∀ a, entry.amount = some a → 0 ≤ a

theorem validateEntries_ok_iff (knownOus : List String)
    (entries : List (String × Option OuBudgetConfigEntry)) :
    validateEntries knownOus entries = .ok () ↔
      ∀ p ∈ entries, entryValid knownOus p.1 p.2 := by
  induction entries with
  | nil =>
    constructor
    · intro _ p hp; simp at hp
    · intro _; rfl
  | cons p rest ih =>
    obtain ⟨ouId, entry?⟩ := p
    cases entry? with
    | none => simp [validateEntries, entryValid]
    | some entry =>
      by_cases hknown : ouId ∈ knownOus
      · cases ha : entry.amount with
        | none =>
          simp only [validateEntries]
          rw [if_neg (not_not_intro hknown)]
          simp only [ha]
          rw [ih]
          constructor
          · intro h q hq
            rcases List.mem_cons.mp hq with hq | hq
            · subst hq
              exact ⟨entry, rfl, hknown, fun a haa => by rw [ha] at haa; cases haa⟩
            · exact h q hq
          · intro h q hq
            exact h q (List.mem_cons_of_mem _ hq)
        | some a =>
          by_cases hneg : a < 0
          · simp only [validateEntries]
            rw [if_neg (not_not_intro hknown)]
            simp only [ha]
            rw [if_pos hneg]
            constructor
            · intro h; cases h
            · intro h
              rcases h (ouId, some entry) (List.mem_cons_self _ _) with ⟨e, he, _, hamt⟩
              injection he with he
              subst he
              exact absurd (hamt a ha) (by omega)
          · simp only [validateEntries]
            rw [if_neg (not_not_intro hknown)]
            simp only [ha]
            rw [if_neg hneg, ih]
            constructor
            · intro h q hq
              rcases List.mem_cons.mp hq with hq | hq
              · subst hq
                exact ⟨entry, rfl, hknown, fun b hb => by
                  rw [ha] at hb; injection hb with hb; omega⟩
              · exact h q hq
            · intro h q hq
              exact h q (List.mem_cons_of_mem _ hq)
      · simp only [validateEntries]
        rw [if_pos hknown]
        constructor
        · intro h; cases h
        · intro h
          rcases h (ouId, some entry) (List.mem_cons_self _ _) with ⟨e, _, hk, _⟩
          exact absurd hk hknown

theorem validateEntries_error_sound (knownOus : List String)
    (entries : List (String × Option OuBudgetConfigEntry)) (e : PlanError)
    (h : validateEntries knownOus entries = .error e) :
    (∃ k, e = PlanError.undefinedEntry k ∧ (k, none) ∈ entries) ∨
    (∃ k entry, e = PlanError.unknownConfigOu k ∧ (k, some entry) ∈ entries ∧
      k ∉ knownOus) ∨
    (∃ k entry a, e = PlanError.invalidAmount k a ∧ (k, some entry) ∈ entries ∧
      entry.amount = some a ∧ a < 0) := by
  induction entries with
  | nil => exact Except.noConfusion h
  | cons p rest ih =>
    obtain ⟨ouId, entry?⟩ := p
    cases entry? with
    | none =>
      simp only [validateEntries] at h
      injection h with h
      exact Or.inl ⟨ouId, h.symm, List.mem_cons_self _ _⟩
    | some entry =>
      by_cases hknown : ouId ∈ knownOus
      · cases ha : entry.amount with
        | none =>
          simp only [validateEntries] at h
          rw [if_neg (not_not_intro hknown)] at h
          simp only [ha] at h
          rcases ih h with ⟨k, hk, hm⟩ | ⟨k, en, hk, hm, hn⟩ | ⟨k, en, a, hk, hm, hh⟩
          · exact Or.inl ⟨k, hk, List.mem_cons_of_mem _ hm⟩
          · exact Or.inr (Or.inl ⟨k, en, hk, List.mem_cons_of_mem _ hm, hn⟩)
          · exact Or.inr (Or.inr ⟨k, en, a, hk, List.mem_cons_of_mem _ hm, hh⟩)
        | some a =>
          by_cases hneg : a < 0
          · simp only [validateEntries] at h
            rw [if_neg (not_not_intro hknown)] at h
            simp only [ha] at h
            rw [if_pos hneg] at h
            injection h with h
            exact Or.inr (Or.inr ⟨ouId, entry, a, h.symm, List.mem_cons_self _ _, ha, hneg⟩)
          · simp only [validateEntries] at h
            rw [if_neg (not_not_intro hknown)] at h
            simp only [ha] at h
            rw [if_neg hneg] at h
            rcases ih h with ⟨k, hk, hm⟩ | ⟨k, en, hk, hm, hn⟩ | ⟨k, en, b, hk, hm, hh⟩
            · exact Or.inl ⟨k, hk, List.mem_cons_of_mem _ hm⟩
            · exact Or.inr (Or.inl ⟨k, en, hk, List.mem_cons_of_mem _ hm, hn⟩)
            · exact Or.inr (Or.inr ⟨k, en, b, hk, List.mem_cons_of_mem _ hm, hh⟩)
      · simp only [validateEntries] at h
        rw [if_pos hknown] at h
        injection h with h
        exact Or.inr (Or.inl ⟨ouId, entry, h.symm, List.mem_cons_self _ _, hknown⟩)

theorem computeEffectiveBudgets_validation_first (tree : OuTree)
    (config : BudgetConfig) (e : PlanError)
    (h : validateBudgetConfig config (assocKeys tree.byId) = .error e) :
    computeEffectiveBudgets tree config = .error e := by
  simp only [computeEffectiveBudgets, h]
  rfl

/-- C6: validation passes exactly when every `organizationalUnits` entry is
defined, names a known OU id, and has a non-negative (or null) amount — in
particular an entry with a null amount passes, every unknown key fails
validation, every undefined entry fails it, and every negative amount fails
it; an error is always one of the three kinds, attributed to an entry that
actually violates the corresponding rule; and `computeEffectiveBudgets`
propagates a validation error before resolving any OU. -/
theorem validateBudgetConfig_characterization (config : BudgetConfig)
    (knownOus : List String) :
    (validateBudgetConfig config knownOus = .ok () ↔
      ∀ entries, config.organizationalUnits = some entries →
        ∀ p ∈ entries, entryValid knownOus p.1 p.2) ∧
    (∀ e, validateBudgetConfig config knownOus = .error e →
      ∃ entries, config.organizationalUnits = some entries ∧
        ((∃ k, e = PlanError.undefinedEntry k ∧ (k, none) ∈ entries) ∨
         (∃ k entry, e = PlanError.unknownConfigOu k ∧ (k, some entry) ∈ entries ∧
           k ∉ knownOus) ∨
         (∃ k entry a, e = PlanError.invalidAmount k a ∧ (k, some entry) ∈ entries ∧
           entry.amount = some a ∧ a < 0))) ∧
    (∀ tree e, validateBudgetConfig config (assocKeys tree.byId) = .error e →
      computeEffectiveBudgets tree config = .error e) := by
  refine ⟨?_, ?_, fun tree e h => computeEffectiveBudgets_validation_first tree config e h⟩
  · cases hou : config.organizationalUnits with
    | none =>
      simp only [validateBudgetConfig, hou]
      constructor
      · intro _ entries he; cases he
      · intro _; rfl
    | some entries =>
      simp only [validateBudgetConfig, hou, validateEntries_ok_iff]
      constructor
      · intro h es hes
        injection hes with hes
        subst hes
        exact h
      · intro h
        exact h entries rfl
  · intro e h
    cases hou : config.organizationalUnits with
    | none =>
      rw [validateBudgetConfig, hou] at h
      exact Except.noConfusion h
    | some entries =>
      rw [validateBudgetConfig, hou] at h
      exact ⟨entries, rfl, validateEntries_error_sound knownOus entries e h⟩

/-- A config in which every entry is valid (one null amount, one zero). -/
def exC6CfgOk : BudgetConfig :=
  { defaultBudget := { amount := some 10, currency := "USD", thresholds := none },
    organizationalUnits := some
      [("x", some { amount := none, currency := none, thresholds := none }),
       ("y", some { amount := some 0, currency := none, thresholds := none })] }

/-- A config whose single entry has a negative amount. -/
def exC6CfgBad : BudgetConfig :=
  { defaultBudget := { amount := some 10, currency := "USD", thresholds := none },
    organizationalUnits := some
      [("z", some { amount := some (-5), currency := none, thresholds := none })] }

theorem validateBudgetConfig_characterization_witness :
    (∀ entries, exC6CfgOk.organizationalUnits = some entries →
      ∀ p ∈ entries, entryValid ["x", "y"] p.1 p.2) ∧
    (∃ entries, exC6CfgBad.organizationalUnits = some entries ∧
      ((∃ k, PlanError.invalidAmount "z" (-5) = PlanError.undefinedEntry k ∧
         (k, none) ∈ entries) ∨
       (∃ k entry, PlanError.invalidAmount "z" (-5) = PlanError.unknownConfigOu k ∧
         (k, some entry) ∈ entries ∧ k ∉ ["z"]) ∨
       (∃ k entry a, PlanError.invalidAmount "z" (-5) = PlanError.invalidAmount k a ∧
         (k, some entry) ∈ entries ∧ entry.amount = some a ∧ a < 0))) :=
  ⟨(validateBudgetConfig_characterization exC6CfgOk ["x", "y"]).1.mp (by rfl),
   (validateBudgetConfig_characterization exC6CfgBad ["z"]).2.1 _ (by rfl)⟩

/-! ## `computeEffectiveBudgets` characterization (resolver, spec section 4.3) -/

theorem resolveBudget_succ (tree : OuTree) (config : BudgetConfig) (fuel : Nat)
    (ouId : String) :
    resolveBudget tree config (fuel + 1) ouId =
      match assocGet tree.byId ouId with
      | none => .error (PlanError.unknownOuId ouId)
      | some ou =>
        match config.organizationalUnits with
        | none => .ok (defaultEffectiveBudget config)
        | some entries =>
          match (assocGet entries ouId).join with
          | some entry =>
            match entry.amount with
            | some a =>
              if a ≠ 0 then
                .ok { amount := some a
                      currency := entry.currency.getD config.defaultBudget.currency
                      thresholds := entry.thresholds <|> config.defaultBudget.thresholds }
              else
                match ou.parentId with
                | some pid => resolveBudget tree config fuel pid
                | none => .ok (defaultEffectiveBudget config)
            | none => .ok { amount := none, currency := DISABLED_CURRENCY, thresholds := none }
          | none =>
            match ou.parentId with
            | some pid => resolveBudget tree config fuel pid
            | none => .ok (defaultEffectiveBudget config) := rfl

theorem resolveBudget_mono {tree : OuTree} {config : BudgetConfig} :
    ∀ {f f' : Nat} {x : String} {b : EffectiveBudget},
      resolveBudget tree config f x = .ok b → f ≤ f' →
      resolveBudget tree config f' x = .ok b := by
  intro f
  induction f with
  | zero => intro f' x b h _; exact Except.noConfusion h
  | succ g ih =>
    intro f' x b h hle
    obtain ⟨g', rfl⟩ : ∃ g', f' = g' + 1 := ⟨f' - 1, by omega⟩
    have hg : g ≤ g' := by omega
    rw [resolveBudget_succ] at h ⊢
    cases hby : assocGet tree.byId x with
    | none => simp only [hby] at h; exact Except.noConfusion h
    | some ou =>
      simp only [hby] at h ⊢
      cases hou : config.organizationalUnits with
      | none => simp only [hou] at h ⊢; exact h
      | some entries =>
        simp only [hou] at h ⊢
        cases hent : (assocGet entries x).join with
        | none =>
          simp only [hent] at h ⊢
          cases hp : ou.parentId with
          | none => simp only [hp] at h ⊢; exact h
          | some pid => simp only [hp] at h ⊢; exact ih h hg
        | some entry =>
          simp only [hent] at h ⊢
          cases ha : entry.amount with
          | none => simp only [ha] at h ⊢; exact h
          | some a =>
            simp only [ha] at h ⊢
            by_cases hz : a ≠ 0
            · simp only [if_pos hz] at h ⊢; exact h
            · simp only [if_neg hz] at h ⊢
              cases hp : ou.parentId with
              | none => simp only [hp] at h ⊢; exact h
              | some pid => simp only [hp] at h ⊢; exact ih h hg

theorem mapM_pairs_ok {β : Type} {f : String → Except PlanError β} :
    ∀ {ks : List String} {m : List (String × β)},
      ks.mapM (fun k => do let v ← f k; pure (k, v)) = .ok m →
      m.map Prod.fst = ks ∧ ∀ p ∈ m, f p.1 = .ok p.2 := by
  intro ks
  induction ks with
  | nil =>
    intro m h
    rw [List.mapM_nil] at h
    injection h with h
    subst h
    exact ⟨rfl, fun p hp => absurd hp (List.not_mem_nil p)⟩
  | cons k rest ih =>
    intro m h
    rw [List.mapM_cons] at h
    cases hk : f k with
    | error e => rw [hk] at h; exact Except.noConfusion h
    | ok v =>
      rw [hk] at h
      cases hrest : rest.mapM (fun k => do let v ← f k; pure (k, v)) with
      | error e =>
        rw [hrest] at h
        exact Except.noConfusion h
      | ok tailm =>
        rw [hrest] at h
        injection h with h
        subst h
        obtain ⟨hkeys, hvals⟩ := ih hrest
        refine ⟨by simp [hkeys], ?_⟩
        intro p hp
        rcases List.mem_cons.mp hp with hp | hp
        · subst hp; exact hk
        · exact hvals p hp

theorem computeEffectiveBudgets_ok_validate {tree : OuTree} {config : BudgetConfig}
    {m : List (String × EffectiveBudget)}
    (h : computeEffectiveBudgets tree config = .ok m) :
    validateBudgetConfig config (assocKeys tree.byId) = .ok () := by
  cases hv : validateBudgetConfig config (assocKeys tree.byId) with
  | ok u => cases u; rfl
  | error e =>
    rw [computeEffectiveBudgets_validation_first tree config e hv] at h
    exact Except.noConfusion h

theorem computeEffectiveBudgets_ok_elim {tree : OuTree} {config : BudgetConfig}
    {m : List (String × EffectiveBudget)}
    (h : computeEffectiveBudgets tree config = .ok m) :
    m.map Prod.fst = assocKeys tree.byId ∧
      ∀ p ∈ m, resolveBudget tree config (tree.byId.length + 1) p.1 = .ok p.2 := by
  have hv := computeEffectiveBudgets_ok_validate h
  rw [computeEffectiveBudgets, hv] at h
  exact mapM_pairs_ok (by exact h)

theorem computeEffectiveBudgets_get {tree : OuTree} {config : BudgetConfig}
    {m : List (String × EffectiveBudget)}
    (h : computeEffectiveBudgets tree config = .ok m) {x : String} {b : EffectiveBudget}
    (hx : assocGet m x = some b) :
    resolveBudget tree config (tree.byId.length + 1) x = .ok b :=
  (computeEffectiveBudgets_ok_elim h).2 (x, b) (mem_of_assocGet_eq_some hx)

theorem computeEffectiveBudgets_get_isSome {tree : OuTree} {config : BudgetConfig}
    {m : List (String × EffectiveBudget)}
    (h : computeEffectiveBudgets tree config = .ok m) {x : String}
    (hx : x ∈ assocKeys tree.byId) : ∃ b, assocGet m x = some b := by
  apply assocGet_isSome_of_mem_keys
  show x ∈ m.map Prod.fst
  rw [(computeEffectiveBudgets_ok_elim h).1]
  exact hx

/-- The `k`-fold iterated parent of `x` along `byId` (`some x` for `k = 0`;
`none` once the chain leaves the tree or reaches a root). -/
def parentIter (tree : OuTree) : Nat → String → Option String
  | 0, x => some x
  | k + 1, x =>
    match assocGet tree.byId x with
    | some ou =>
      match ou.parentId with
      | some p => parentIter tree k p
      | none => none
    | none => none

theorem parentIter_step {tree : OuTree} {x p : String} {ou : OuNode}
    (hby : assocGet tree.byId x = some ou) (hp : ou.parentId = some p) (k : Nat) :
    parentIter tree (k + 1) x = parentIter tree k p := by
  simp [parentIter, hby, hp]

/-- Resolution consults only the entries of the OU's iterated parent chain:
two configs with the same default whose entry lookups agree on that chain
resolve the OU identically (same value or same error, at every fuel). -/
theorem resolveBudget_entries_congr {tree : OuTree} {c1 c2 : BudgetConfig}
    {e1 e2 : List (String × Option OuBudgetConfigEntry)}
    (h1 : c1.organizationalUnits = some e1) (h2 : c2.organizationalUnits = some e2)
    (hdef : c1.defaultBudget = c2.defaultBudget) (D : String → Prop)
    (hagree : ∀ y, ¬ D y → (assocGet e1 y).join = (assocGet e2 y).join) :
    ∀ (f : Nat) (x : String), (∀ k y, parentIter tree k x = some y → ¬ D y) →
      resolveBudget tree c1 f x = resolveBudget tree c2 f x := by
  have hdefb : defaultEffectiveBudget c1 = defaultEffectiveBudget c2 := by
    simp [defaultEffectiveBudget, hdef]
  intro f
  induction f with
  | zero => intro x _; rfl
  | succ g ih =>
    intro x hchain
    rw [resolveBudget_succ, resolveBudget_succ]
    cases hby : assocGet tree.byId x with
    | none => rfl
    | some ou =>
      simp only [h1, h2]
      have hx : ¬ D x := hchain 0 x rfl
      rw [← hagree x hx]
      cases hent : (assocGet e1 x).join with
      | none =>
        simp only []
        cases hp : ou.parentId with
        | none => simp only [hdefb]
        | some pid =>
          exact ih pid (fun k y hk => hchain (k + 1) y (by
            rw [parentIter_step hby hp]; exact hk))
      | some entry =>
        simp only []
        cases ha : entry.amount with
        | none => simp only []
        | some a =>
          simp only []
          by_cases hz : a ≠ 0
          · simp only [if_pos hz, hdef]
          · simp only [if_neg hz]
            cases hp : ou.parentId with
            | none => simp only [hdefb]
            | some pid =>
              exact ih pid (fun k y hk => hchain (k + 1) y (by
                rw [parentIter_step hby hp]; exact hk))

/-- Erasing (or adding) an entry whose amount is `0` does not change the
resolution of any OU: a kept zero-amount entry takes the same
inherit-or-default branch as a missing entry. -/
theorem resolveBudget_zero_entry_congr {tree : OuTree} {c1 c2 : BudgetConfig}
    {e1 e2 : List (String × Option OuBudgetConfigEntry)} {x : String}
    {entry : OuBudgetConfigEntry}
    (h1 : c1.organizationalUnits = some e1) (h2 : c2.organizationalUnits = some e2)
    (hdef : c1.defaultBudget = c2.defaultBudget)
    (hx1 : (assocGet e1 x).join = some entry) (ha : entry.amount = some 0)
    (hx2 : (assocGet e2 x).join = none)
    (hagree : ∀ y, y ≠ x → (assocGet e1 y).join = (assocGet e2 y).join) :
    ∀ (f : Nat) (y : String),
      resolveBudget tree c1 f y = resolveBudget tree c2 f y := by
  have hdefb : defaultEffectiveBudget c1 = defaultEffectiveBudget c2 := by
    simp [defaultEffectiveBudget, hdef]
  intro f
  induction f with
  | zero => intro y; rfl
  | succ g ih =>
    intro y
    rw [resolveBudget_succ, resolveBudget_succ]
    cases hby : assocGet tree.byId y with
    | none => rfl
    | some ou =>
      simp only [h1, h2]
      by_cases hxy : y = x
      · subst hxy
        rw [hx1, hx2]
        simp only [ha]
        rw [if_neg (by omega : ¬ (0 : Int) ≠ 0)]
        cases hp : ou.parentId with
        | none => simp only [hdefb]
        | some pid => simp only [ih pid]
      · rw [← hagree y hxy]
        cases hent : (assocGet e1 y).join with
        | none =>
          simp only []
          cases hp : ou.parentId with
          | none => simp only [hdefb]
          | some pid => simp only [ih pid]
        | some en =>
          simp only []
          cases hae : en.amount with
          | none => simp only []
          | some a =>
            simp only []
            by_cases hz : a ≠ 0
            · simp only [if_pos hz, hdef]
            · simp only [if_neg hz]
              cases hp : ou.parentId with
              | none => simp only [hdefb]
              | some pid => simp only [ih pid]

/-- C2: under a validated config, `computeEffectiveBudgets` assigns one
budget per `byId` key, and resolution follows the three cases in source
order: (1) an own entry with a positive amount yields that amount with
currency/thresholds from the entry else the default; (2) an own entry with
null amount yields the disabled sentinel budget, a constant independent of
the OU's ancestors; (3) an OU with no entry at all takes its parent's
computed budget verbatim, and a root with no entry takes the default. -/
theorem computeEffectiveBudgets_three_cases (tree : OuTree) (config : BudgetConfig)
    (hv : validateBudgetConfig config (assocKeys tree.byId) = .ok ()) :
    (∀ m, computeEffectiveBudgets tree config = .ok m →
       m.map Prod.fst = assocKeys tree.byId) ∧
    (∀ f x entries entry a, config.organizationalUnits = some entries →
       x ∈ assocKeys tree.byId →
       (assocGet entries x).join = some entry → entry.amount = some a → 0 < a →
       resolveBudget tree config (f + 1) x =
         .ok { amount := some a
               currency := entry.currency.getD config.defaultBudget.currency
               thresholds := entry.thresholds <|> config.defaultBudget.thresholds }) ∧
    (∀ f x entries entry, config.organizationalUnits = some entries →
       x ∈ assocKeys tree.byId →
       (assocGet entries x).join = some entry → entry.amount = none →
       resolveBudget tree config (f + 1) x =
         .ok { amount := none, currency := DISABLED_CURRENCY, thresholds := none }) ∧
    (∀ m x ou, computeEffectiveBudgets tree config = .ok m →
       assocGet tree.byId x = some ou →
       (∀ entries, config.organizationalUnits = some entries →
         (assocGet entries x).join = none) →
       (∀ p, ou.parentId = some p → p ∈ assocKeys tree.byId →
          assocGet m x = assocGet m p) ∧
       (ou.parentId = none → assocGet m x = some (defaultEffectiveBudget config))) := by
  refine ⟨?_, ?_, ?_, ?_⟩
  · intro m hm
    exact (computeEffectiveBudgets_ok_elim hm).1
  · intro f x entries entry a hou hx hent ha hpos
    obtain ⟨ou, hby⟩ := assocGet_isSome_of_mem_keys hx
    rw [resolveBudget_succ]
    simp only [hby, hou, hent, ha]
    rw [if_pos (by omega : a ≠ 0)]
  · intro f x entries entry hou hx hent ha
    obtain ⟨ou, hby⟩ := assocGet_isSome_of_mem_keys hx
    rw [resolveBudget_succ]
    simp only [hby, hou, hent, ha]
  · intro m x ou hm hby hnoent
    have hxkeys : x ∈ assocKeys tree.byId := assocGet_mem_keys hby
    obtain ⟨bx, hbx⟩ := computeEffectiveBudgets_get_isSome hm hxkeys
    have hresx := computeEffectiveBudgets_get hm hbx
    constructor
    · intro p hp hpkeys
      obtain ⟨bp, hbp⟩ := computeEffectiveBudgets_get_isSome hm hpkeys
      have hresp := computeEffectiveBudgets_get hm hbp
      rw [hbx, hbp]
      cases hou : config.organizationalUnits with
      | none =>
        -- with no per-OU config at all, every OU resolves to the default
        obtain ⟨oup, hbyp⟩ := assocGet_isSome_of_mem_keys hpkeys
        rw [resolveBudget_succ] at hresx hresp
        simp only [hby, hou] at hresx
        simp only [hbyp, hou] at hresp
        injection hresx with hresx
        injection hresp with hresp
        rw [← hresx, ← hresp]
      | some entries =>
        rw [resolveBudget_succ] at hresx
        simp only [hby, hou, hnoent entries hou, hp] at hresx
        -- the parent was resolved with one more unit of fuel; monotonicity aligns them
        cases htl : tree.byId.length with
        | zero =>
          rw [List.length_eq_zero] at htl
          rw [htl] at hby
          exact Option.noConfusion hby
        | succ n =>
          rw [htl] at hresx hresp
          have := resolveBudget_mono hresx (by omega : n + 1 ≤ n + 1 + 1)
          rw [this] at hresp
          injection hresp with hreq
          rw [hreq]
    · intro hp
      rw [hbx]
      rw [resolveBudget_succ] at hresx
      cases hou : config.organizationalUnits with
      | none =>
        simp only [hby, hou] at hresx
        injection hresx with hresx
        rw [hresx]
      | some entries =>
        simp only [hby, hou, hnoent entries hou, hp] at hresx
        injection hresx with hresx
        rw [hresx]

/-- Nodes for the C2 witness: a root, a child with an explicit entry, a
grandchild with no entry, and a disabled child. -/
def exC2Ous : List OuNode :=
  [⟨"r", none⟩, ⟨"a", some "r"⟩, ⟨"b", some "a"⟩, ⟨"d", some "r"⟩]

def exC2Cfg : BudgetConfig :=
  { defaultBudget := { amount := some 7, currency := "USD", thresholds := some [50, 80] },
    organizationalUnits := some
      [("a", some { amount := some 5, currency := some "EUR", thresholds := none }),
       ("d", some { amount := none, currency := none, thresholds := none })] }

def exC2Tree : OuTree :=
  { byId := [("r", ⟨"r", none⟩), ("a", ⟨"a", some "r"⟩), ("b", ⟨"b", some "a"⟩),
             ("d", ⟨"d", some "r"⟩)],
    children := [("r", ["a", "d"]), ("a", ["b"])],
    roots := ["r"] }

def exC2Budgets : List (String × EffectiveBudget) :=
  [("r", { amount := some 7, currency := "USD", thresholds := some [50, 80] }),
   ("a", { amount := some 5, currency := "EUR", thresholds := some [50, 80] }),
   ("b", { amount := some 5, currency := "EUR", thresholds := some [50, 80] }),
   ("d", { amount := none, currency := DISABLED_CURRENCY, thresholds := none })]

theorem computeEffectiveBudgets_three_cases_witness :
    computeEffectiveBudgets exC2Tree exC2Cfg = .ok exC2Budgets ∧
    exC2Budgets.map Prod.fst = assocKeys exC2Tree.byId ∧
    resolveBudget exC2Tree exC2Cfg 5 "a" =
      .ok { amount := some 5, currency := "EUR", thresholds := some [50, 80] } ∧
    resolveBudget exC2Tree exC2Cfg 5 "d" =
      .ok { amount := none, currency := DISABLED_CURRENCY, thresholds := none } ∧
    assocGet exC2Budgets "b" = assocGet exC2Budgets "a" ∧
    assocGet exC2Budgets "r" = some (defaultEffectiveBudget exC2Cfg) := by
  have h := computeEffectiveBudgets_three_cases exC2Tree exC2Cfg (by rfl)
  refine ⟨by rfl, h.1 exC2Budgets (by rfl), ?_, ?_, ?_, ?_⟩
  · exact h.2.1 4 "a" _ _ 5 rfl (by decide) (by rfl) rfl (by decide)
  · exact h.2.2.1 4 "d" _ _ rfl (by decide) (by rfl) rfl
  · exact ((h.2.2.2 exC2Budgets "b" ⟨"b", some "a"⟩ (by rfl) (by rfl)
      (fun entries he => by injection he with he; rw [← he]; rfl)).1 "a" rfl (by decide))
  · exact ((h.2.2.2 exC2Budgets "r" ⟨"r", none⟩ (by rfl) (by rfl)
      (fun entries he => by injection he with he; rw [← he]; rfl)).2 rfl)

/-- C9: a zero amount passes validation (it is not negative), and an OU
whose entry has amount `0` resolves exactly like an OU with no entry at all:
it takes the parent branch (or the default at a root), and replacing the
zero-amount entry by no entry leaves the resolution of every OU unchanged. -/
theorem zero_amount_entry_inherits (tree : OuTree) (config : BudgetConfig) :
    (∀ knownOus (x : String) c t, x ∈ knownOus →
       entryValid knownOus x (some { amount := some 0, currency := c, thresholds := t })) ∧
    (∀ f x ou entries entry, assocGet tree.byId x = some ou →
       config.organizationalUnits = some entries →
       (assocGet entries x).join = some entry → entry.amount = some 0 →
       resolveBudget tree config (f + 1) x =
         match ou.parentId with
         | some pid => resolveBudget tree config f pid
         | none => .ok (defaultEffectiveBudget config)) ∧
    (∀ (c' : BudgetConfig) entries entries' x entry,
       config.organizationalUnits = some entries →
       c'.organizationalUnits = some entries' →
       c'.defaultBudget = config.defaultBudget →
       (assocGet entries x).join = some entry → entry.amount = some 0 →
       (assocGet entries' x).join = none →
       (∀ y, y ≠ x → (assocGet entries y).join = (assocGet entries' y).join) →
       ∀ f y, resolveBudget tree config f y = resolveBudget tree c' f y) := by
  refine ⟨?_, ?_, ?_⟩
  · intro knownOus x c t hx
    exact ⟨_, rfl, hx, fun a ha => by injection ha with ha; omega⟩
  · intro f x ou entries entry hby hou hent ha
    rw [resolveBudget_succ]
    simp only [hby, hou, hent, ha]
    rw [if_neg (by omega : ¬ (0 : Int) ≠ 0)]
  · intro c' entries entries' x entry hou hou' hdef hent ha hent' hagree f y
    exact resolveBudget_zero_entry_congr hou hou' hdef.symm hent ha hent'
      (fun z hz => hagree z hz) f y

/-- The C9 witness reuses the C2 example with a zero-amount entry added. -/
def exC9Cfg : BudgetConfig :=
  { defaultBudget := { amount := some 7, currency := "USD", thresholds := some [50, 80] },
    organizationalUnits := some
      [("a", some { amount := some 5, currency := some "EUR", thresholds := none }),
       ("b", some { amount := some 0, currency := some "JPY", thresholds := some [10] })] }

def exC9CfgErased : BudgetConfig :=
  { defaultBudget := { amount := some 7, currency := "USD", thresholds := some [50, 80] },
    organizationalUnits := some
      [("a", some { amount := some 5, currency := some "EUR", thresholds := none })] }

theorem zero_amount_entry_inherits_witness :
    entryValid ["r", "a", "b", "d"] "b"
      (some { amount := some 0, currency := some "JPY", thresholds := some [10] }) ∧
    resolveBudget exC2Tree exC9Cfg 5 "b" = resolveBudget exC2Tree exC9Cfg 4 "a" ∧
    resolveBudget exC2Tree exC9Cfg 5 "b" = resolveBudget exC2Tree exC9CfgErased 5 "b" := by
  have h := zero_amount_entry_inherits exC2Tree exC9Cfg
  refine ⟨h.1 ["r", "a", "b", "d"] "b" (some "JPY") (some [10]) (by decide), ?_, ?_⟩
  · exact h.2.1 4 "b" ⟨"b", some "a"⟩ _ _ (by rfl) rfl (by rfl) rfl
  · refine h.2.2 exC9CfgErased _ _ "b" _ rfl rfl rfl (by rfl) rfl (by rfl) ?_ 5 "b"
    intro y hy
    simp only [assocGet]
    by_cases ha : ("a" : String) = y
    · rw [if_pos ha, if_pos ha]
    · rw [if_neg ha, if_neg ha, if_neg (fun h => hy h.symm)]

/-! ## Tree structure: edges, subtrees, parent-chain distance -/

/-- `c` is listed among the children of `p` in the adjacency map. -/
def childEdge (tree : OuTree) (p c : String) : Prop :=
  c ∈ (assocGet tree.children p).getD []

/-- `Subtree tree x y`: `y` is reachable from `x` along child edges — `y`
belongs to the subtree that an attachment at `x` covers. -/
inductive Subtree (tree : OuTree) : String → String → Prop where
  | refl (x : String) : Subtree tree x x
  | step {x p c : String} : Subtree tree x p → childEdge tree p c → Subtree tree x c

/-- Length of the `byId` parent chain from `x` up to a null-parent node,
computed with fuel. -/
def parentChain (tree : OuTree) : Nat → String → Option Nat
  | 0, _ => none
  | f + 1, x =>
    match assocGet tree.byId x with
    | none => none
    | some ou =>
      match ou.parentId with
      | none => some 0
      | some p => (parentChain tree f p).map (· + 1)

/-- `x`'s parent chain reaches a root in exactly `d` steps (stated with the
self-sufficient fuel `d + 1`). -/
def HasDist (tree : OuTree) (x : String) (d : Nat) : Prop :=
  parentChain tree (d + 1) x = some d

/-- Well-formedness of an `OuTree`: distinct `byId` keys, parent pointers
that stay inside the tree, a children adjacency that matches the parent
pointers exactly (with duplicate-free child lists), roots drawn from the
tree, and every node's parent chain reaching a root.  `buildOuTree` output
on a duplicate-free, parent-closed, acyclic input satisfies all of this. -/
structure WfTree (tree : OuTree) : Prop where
  keysNodup : (assocKeys tree.byId).Nodup
  parentsClosed : ∀ k n p, assocGet tree.byId k = some n → n.parentId = some p →
    p ∈ assocKeys tree.byId
  childrenIff : ∀ p c, childEdge tree p c ↔
    ∃ n, assocGet tree.byId c = some n ∧ n.parentId = some p
  childrenNodup : ∀ p, ((assocGet tree.children p).getD []).Nodup
  rootsSub : ∀ r ∈ tree.roots, r ∈ assocKeys tree.byId
  chainTotal : ∀ k ∈ assocKeys tree.byId, ∃ d, HasDist tree k d

theorem parentChain_mono {tree : OuTree} :
    ∀ {f f' : Nat} {x : String} {d : Nat},
      parentChain tree f x = some d → f ≤ f' → parentChain tree f' x = some d := by
  intro f
  induction f with
  | zero => intro f' x d h _; exact Option.noConfusion h
  | succ g ih =>
    intro f' x d h hle
    obtain ⟨g', rfl⟩ : ∃ g', f' = g' + 1 := ⟨f' - 1, by omega⟩
    rw [parentChain] at h ⊢
    cases hby : assocGet tree.byId x with
    | none => simp only [hby] at h; exact Option.noConfusion h
    | some ou =>
      simp only [hby] at h ⊢
      cases hp : ou.parentId with
      | none => simp only [hp] at h ⊢; exact h
      | some p =>
        simp only [hp] at h ⊢
        cases hpc : parentChain tree g p with
        | none => rw [hpc] at h; exact Option.noConfusion h
        | some dp =>
          rw [hpc] at h
          rw [ih hpc (by omega)]
          exact h

theorem parentChain_exact {tree : OuTree} :
    ∀ {f : Nat} {x : String} {d : Nat},
      parentChain tree f x = some d → HasDist tree x d := by
  intro f
  induction f with
  | zero => intro x d h; exact Option.noConfusion h
  | succ g ih =>
    intro x d h
    rw [parentChain] at h
    cases hby : assocGet tree.byId x with
    | none => simp only [hby] at h; exact Option.noConfusion h
    | some ou =>
      simp only [hby] at h
      cases hp : ou.parentId with
      | none =>
        simp only [hp] at h
        injection h with h
        subst h
        show parentChain tree 1 x = some 0
        rw [parentChain]
        simp [hby, hp]
      | some p =>
        simp only [hp] at h
        cases hpc : parentChain tree g p with
        | none => rw [hpc] at h; exact Option.noConfusion h
        | some dp =>
          rw [hpc] at h
          injection h with h
          subst h
          have hdp := ih hpc
          have hdp' : parentChain tree (dp + 1) p = some dp := hdp
          show parentChain tree (dp + 1 + 1) x = some (dp + 1)
          rw [parentChain]
          simp only [hby, hp, hdp']
          rfl

theorem hasDist_unique {tree : OuTree} {x : String} {d d' : Nat}
    (h : HasDist tree x d) (h' : HasDist tree x d') : d = d' := by
  have h1 := parentChain_mono h (le_max_left (d + 1) (d' + 1))
  have h2 := parentChain_mono h' (le_max_right (d + 1) (d' + 1))
  rw [h1] at h2
  injection h2 with h2

theorem hasDist_zero {tree : OuTree} {x : String} {ou : OuNode}
    (hby : assocGet tree.byId x = some ou) (hp : ou.parentId = none) :
    HasDist tree x 0 := by
  show parentChain tree 1 x = some 0
  rw [parentChain]
  simp [hby, hp]

theorem hasDist_step {tree : OuTree} {x p : String} {ou : OuNode} {d : Nat}
    (hby : assocGet tree.byId x = some ou) (hp : ou.parentId = some p)
    (h : HasDist tree x d) :
    ∃ dp, HasDist tree p dp ∧ d = dp + 1 := by
  rw [HasDist, parentChain] at h
  simp only [hby, hp] at h
  cases hpc : parentChain tree d p with
  | none => rw [hpc] at h; exact Option.noConfusion h
  | some dp =>
    rw [hpc] at h
    injection h with h
    exact ⟨dp, parentChain_exact hpc, h.symm⟩

theorem hasDist_of_parent {tree : OuTree} {x p : String} {ou : OuNode} {dp : Nat}
    (hby : assocGet tree.byId x = some ou) (hp : ou.parentId = some p)
    (h : HasDist tree p dp) : HasDist tree x (dp + 1) := by
  have h' : parentChain tree (dp + 1) p = some dp := h
  show parentChain tree (dp + 1 + 1) x = some (dp + 1)
  rw [parentChain]
  simp only [hby, hp, h']
  rfl

theorem childEdge_dist {tree : OuTree} (wf : WfTree tree) {p c : String} {d : Nat}
    (he : childEdge tree p c) (hd : HasDist tree p d) : HasDist tree c (d + 1) := by
  obtain ⟨n, hby, hpar⟩ := (wf.childrenIff p c).mp he
  exact hasDist_of_parent hby hpar hd

theorem hasDist_mem_keys {tree : OuTree} {x : String} {d : Nat}
    (h : HasDist tree x d) : x ∈ assocKeys tree.byId := by
  rw [HasDist, parentChain] at h
  cases hby : assocGet tree.byId x with
  | none => simp only [hby] at h; exact Option.noConfusion h
  | some ou => exact assocGet_mem_keys hby

/-- The parent chain of a node visits `d + 1` pairwise distinct tree nodes,
so `d` is bounded by the number of `byId` entries. -/
theorem hasDist_chain_list {tree : OuTree} :
    ∀ (d : Nat) (x : String), HasDist tree x d →
      ∃ l : List String, l.Nodup ∧ l.length = d + 1 ∧
        (∀ y ∈ l, y ∈ assocKeys tree.byId) ∧
        (∀ y ∈ l, ∃ dy, HasDist tree y dy ∧ dy ≤ d) := by
  intro d
  induction d with
  | zero =>
    intro x h
    refine ⟨[x], by simp, rfl, ?_, ?_⟩
    · intro y hy
      rw [List.mem_singleton] at hy
      subst hy
      exact hasDist_mem_keys h
    · intro y hy
      rw [List.mem_singleton] at hy
      subst hy
      exact ⟨0, h, le_refl 0⟩
  | succ d ih =>
    intro x h
    have hx := h
    rw [HasDist, parentChain] at hx
    cases hby : assocGet tree.byId x with
    | none => simp only [hby] at hx; exact Option.noConfusion hx
    | some ou =>
      simp only [hby] at hx
      cases hp : ou.parentId with
      | none => simp only [hp] at hx; injection hx with hx; exact absurd hx (by omega)
      | some p =>
        simp only [hp] at hx
        cases hpc : parentChain tree (d + 1) p with
        | none => rw [hpc] at hx; exact Option.noConfusion hx
        | some dp =>
          simp only [hpc, Option.map_some'] at hx
          injection hx with hx
          have hdp : dp = d := by omega
          subst hdp
          have hpdist : HasDist tree p dp := parentChain_exact hpc
          obtain ⟨l, hnd, hlen, hkeys, hdists⟩ := ih p hpdist
          refine ⟨x :: l, ?_, by simp [hlen], ?_, ?_⟩
          · rw [List.nodup_cons]
            refine ⟨?_, hnd⟩
            intro hmem
            obtain ⟨dy, hdy, hle⟩ := hdists x hmem
            have heq : dp + 1 = dy := hasDist_unique h hdy
            omega
          · intro y hy
            rcases List.mem_cons.mp hy with hy | hy
            · subst hy; exact assocGet_mem_keys hby
            · exact hkeys y hy
          · intro y hy
            rcases List.mem_cons.mp hy with hy | hy
            · subst hy; exact ⟨dp + 1, h, le_refl _⟩
            · obtain ⟨dy, hdy, hle⟩ := hdists y hy
              exact ⟨dy, hdy, by omega⟩

theorem hasDist_lt_length {tree : OuTree} (wf : WfTree tree) {x : String} {d : Nat}
    (h : HasDist tree x d) : d < tree.byId.length := by
  obtain ⟨l, hnd, hlen, hkeys, _⟩ := hasDist_chain_list d x h
  have hsub : l.toFinset ⊆ (assocKeys tree.byId).toFinset := by
    intro y hy
    rw [List.mem_toFinset] at hy ⊢
    exact hkeys y hy
  have h1 : l.toFinset.card = d + 1 := by
    rw [List.toFinset_card_of_nodup hnd, hlen]
  have h2 : (assocKeys tree.byId).toFinset.card = tree.byId.length := by
    rw [List.toFinset_card_of_nodup wf.keysNodup]
    simp [assocKeys]
  have := Finset.card_le_card hsub
  omega

theorem Subtree.trans {tree : OuTree} {x y z : String}
    (h1 : Subtree tree x y) (h2 : Subtree tree y z) : Subtree tree x z := by
  induction h2 with
  | refl => exact h1
  | step _ he ih => exact Subtree.step ih he

theorem subtree_kept {tree : OuTree} (wf : WfTree tree) {x y : String}
    (hx : x ∈ assocKeys tree.byId) (h : Subtree tree x y) :
    y ∈ assocKeys tree.byId := by
  induction h with
  | refl => exact hx
  | step _ he _ =>
    obtain ⟨n, hby, _⟩ := (wf.childrenIff _ _).mp he
    exact assocGet_mem_keys hby

theorem subtree_to_parentIter_wf {tree : OuTree} (wf : WfTree tree) {x y : String}
    (h : Subtree tree x y) : ∃ k, parentIter tree k y = some x := by
  induction h with
  | refl => exact ⟨0, rfl⟩
  | @step p c hsub he ih =>
    obtain ⟨k, hk⟩ := ih
    obtain ⟨n, hby, hpar⟩ := (wf.childrenIff p c).mp he
    exact ⟨k + 1, by rw [parentIter_step hby hpar]; exact hk⟩

theorem parentIter_to_subtree {tree : OuTree} (wf : WfTree tree) :
    ∀ {k : Nat} {x y : String}, parentIter tree k y = some x → Subtree tree x y := by
  intro k
  induction k with
  | zero => intro x y h; injection h with h; subst h; exact Subtree.refl _
  | succ j ih =>
    intro x y h
    rw [parentIter] at h
    cases hby : assocGet tree.byId y with
    | none => simp only [hby] at h; exact Option.noConfusion h
    | some ou =>
      simp only [hby] at h
      cases hp : ou.parentId with
      | none => simp only [hp] at h; exact Option.noConfusion h
      | some p =>
        simp only [hp] at h
        exact Subtree.step (ih h) ((wf.childrenIff p y).mpr ⟨ou, hby, hp⟩)

theorem parentIter_add (tree : OuTree) :
    ∀ (a b : Nat) (x : String),
      parentIter tree (a + b) x =
        (parentIter tree a x).bind (fun y => parentIter tree b y) := by
  intro a
  induction a with
  | zero => intro b x; simp [parentIter, Nat.zero_add]
  | succ j ih =>
    intro b x
    have harith : j + 1 + b = (j + b) + 1 := by omega
    rw [harith, parentIter, parentIter]
    cases hby : assocGet tree.byId x with
    | none => simp [hby]
    | some ou =>
      simp only [hby]
      cases hp : ou.parentId with
      | none => simp [hp]
      | some p => simp only [hp]; exact ih b p

theorem ancestors_comparable {tree : OuTree} (wf : WfTree tree) {a b y : String}
    (ha : Subtree tree a y) (hb : Subtree tree b y) :
    Subtree tree a b ∨ Subtree tree b a := by
  obtain ⟨k, hk⟩ := subtree_to_parentIter_wf wf ha
  obtain ⟨j, hj⟩ := subtree_to_parentIter_wf wf hb
  rcases le_total k j with hle | hle
  · right
    obtain ⟨m, rfl⟩ : ∃ m, j = k + m := ⟨j - k, by omega⟩
    rw [parentIter_add tree k m y, hk] at hj
    exact parentIter_to_subtree wf hj
  · left
    obtain ⟨m, rfl⟩ : ∃ m, k = j + m := ⟨k - j, by omega⟩
    rw [parentIter_add tree j m y, hj] at hk
    exact parentIter_to_subtree wf hk

theorem subtree_dist_le {tree : OuTree} (wf : WfTree tree) {x y : String}
    (h : Subtree tree x y) :
    ∀ {dx dy : Nat}, HasDist tree x dx → HasDist tree y dy → dx ≤ dy := by
  induction h with
  | refl =>
    intro dx dy h1 h2
    rw [hasDist_unique h1 h2]
  | @step p c hsub he ih =>
    intro dx dy h1 h2
    obtain ⟨n, hby, hpar⟩ := (wf.childrenIff p c).mp he
    obtain ⟨dp, hdp, heq⟩ := hasDist_step hby hpar h2
    have := ih h1 hdp
    omega

theorem subtree_dist_eq {tree : OuTree} (wf : WfTree tree) {x y : String}
    (h : Subtree tree x y) {dx dy : Nat} (h1 : HasDist tree x dx)
    (h2 : HasDist tree y dy) (heq : dx = dy) : x = y := by
  cases h with
  | refl => rfl
  | step hsub he =>
    rename_i p
    obtain ⟨n, hby, hpar⟩ := (wf.childrenIff p y).mp he
    obtain ⟨dp, hdp, hstep⟩ := hasDist_step hby hpar h2
    have hle : dx ≤ dp := subtree_dist_le wf hsub h1 hdp
    omega

theorem subtree_first_edge {tree : OuTree} {x t : String} (h : Subtree tree x t) :
    x = t ∨ ∃ c, childEdge tree x c ∧ Subtree tree c t := by
  induction h with
  | refl => exact Or.inl rfl
  | @step p c hsub he ih =>
    rcases ih with rfl | ⟨c', he', hsub'⟩
    · exact Or.inr ⟨c, he, Subtree.refl _⟩
    · exact Or.inr ⟨c', he', Subtree.step hsub' he⟩

theorem subtree_last_edge {tree : OuTree} {x c : String} (h : Subtree tree x c)
    (hne : c ≠ x) : ∃ p, Subtree tree x p ∧ childEdge tree p c := by
  cases h with
  | refl => exact absurd rfl hne
  | step hsub he => exact ⟨_, hsub, he⟩

/-! ## Canonical uniform status (spec section 4.4) -/

theorem list_all_congr {l : List α} {p q : α → Bool}
    (h : ∀ a ∈ l, p a = q a) : l.all p = l.all q := by
  induction l with
  | nil => rfl
  | cons a rest ih =>
    simp only [List.all_cons]
    rw [h a (List.mem_cons_self _ _), ih (fun b hb => h b (List.mem_cons_of_mem _ hb))]

/-- Fueled form of the spec's `status`: a node is uniform when every child
is uniform with a value equal (under `equals`) to the node's own value. -/
def uniformAtF (tree : OuTree) (vals : String → Option V)
    (equals : Option V → Option V → Bool) : Nat → String → Bool
  | 0, _ => true
  | f + 1, x =>
    ((assocGet tree.children x).getD []).all
      (fun c => uniformAtF tree vals equals f c && equals (vals c) (vals x))

/-- Canonical status: in a well-formed tree, `tree.byId.length` fuel is
always sufficient (every node's subtree is shallower than that). -/
def uniformAt (tree : OuTree) (vals : String → Option V)
    (equals : Option V → Option V → Bool) (x : String) : Bool :=
  uniformAtF tree vals equals tree.byId.length x

theorem uniformAtF_fuel_irrel {tree : OuTree} (wf : WfTree tree)
    (vals : String → Option V) (equals : Option V → Option V → Bool) :
    ∀ (n : Nat) (x : String) (d : Nat), HasDist tree x d →
      n = tree.byId.length - d →
      ∀ f g, n ≤ f → n ≤ g →
        uniformAtF tree vals equals f x = uniformAtF tree vals equals g x := by
  intro n
  induction n using Nat.strong_induction_on with
  | _ n ih =>
    intro x d hd hn f g hf hg
    have hdlt := hasDist_lt_length wf hd
    have hn1 : 1 ≤ n := by omega
    obtain ⟨f', rfl⟩ : ∃ f', f = f' + 1 := ⟨f - 1, by omega⟩
    obtain ⟨g', rfl⟩ : ∃ g', g = g' + 1 := ⟨g - 1, by omega⟩
    rw [uniformAtF, uniformAtF]
    apply list_all_congr
    intro c hc
    have hdc : HasDist tree c (d + 1) := childEdge_dist wf hc hd
    have hrec := ih (tree.byId.length - (d + 1)) (by omega) c (d + 1) hdc rfl f' g'
      (by omega) (by omega)
    rw [hrec]

theorem uniformAt_unfold {tree : OuTree} (wf : WfTree tree)
    (vals : String → Option V) (equals : Option V → Option V → Bool)
    {x : String} {d : Nat} (hd : HasDist tree x d) :
    uniformAt tree vals equals x =
      ((assocGet tree.children x).getD []).all
        (fun c => uniformAt tree vals equals c && equals (vals c) (vals x)) := by
  have hdlt := hasDist_lt_length wf hd
  obtain ⟨n, hn⟩ : ∃ n, tree.byId.length = n + 1 := ⟨tree.byId.length - 1, by omega⟩
  rw [uniformAt, hn, uniformAtF]
  apply list_all_congr
  intro c hc
  have hdc : HasDist tree c (d + 1) := childEdge_dist wf hc hd
  have := uniformAtF_fuel_irrel wf vals equals (tree.byId.length - (d + 1)) c (d + 1)
    hdc rfl n (n + 1) (by omega) (by omega)
  rw [uniformAt, hn, this]

/-- In a uniform subtree, every child edge goes to a uniform node whose
value is equal to the parent's. -/
theorem uniformAt_child {tree : OuTree} (wf : WfTree tree)
    {vals : String → Option V} {equals : Option V → Option V → Bool}
    {x c : String} {d : Nat} (hd : HasDist tree x d)
    (hu : uniformAt tree vals equals x = true) (hc : childEdge tree x c) :
    uniformAt tree vals equals c = true ∧ equals (vals c) (vals x) = true := by
  rw [uniformAt_unfold wf vals equals hd] at hu
  rw [List.all_eq_true] at hu
  have := hu c hc
  rw [Bool.and_eq_true] at this
  exact this

/-- Uniformity is hereditary along subtrees. -/
theorem uniformAt_subtree {tree : OuTree} (wf : WfTree tree)
    {vals : String → Option V} {equals : Option V → Option V → Bool}
    {x y : String} (hs : Subtree tree x y) {d : Nat} (hd : HasDist tree x d)
    (hu : uniformAt tree vals equals x = true) :
    uniformAt tree vals equals y = true := by
  induction hs with
  | refl => exact hu
  | @step p c hsub he ih =>
    obtain ⟨dp, hdp⟩ :=
      wf.chainTotal p (subtree_kept wf (hasDist_mem_keys hd) hsub)
    exact (uniformAt_child wf hdp ih he).1

/-! ## Correctness of the memoised status DFS -/

theorem exceptBind_ok (a : α) (f : α → Except PlanError β) :
    (Except.ok a >>= f) = f a := rfl

theorem exceptPure (a : α) : (pure a : Except PlanError α) = Except.ok a := rfl

theorem mem_assocSet {m : List (String × α)} {k : String} {v : α} {p : String × α}
    (h : p ∈ assocSet m k v) : p = (k, v) ∨ p ∈ m := by
  induction m with
  | nil => simpa [assocSet] using h
  | cons q rest ih =>
    by_cases hk : q.1 = k
    · obtain ⟨qk, qv⟩ := q
      simp only [assocSet, if_pos hk] at h
      rcases List.mem_cons.mp h with h | h
      · exact Or.inl h
      · exact Or.inr (List.mem_cons_of_mem _ h)
    · obtain ⟨qk, qv⟩ := q
      simp only [assocSet, if_neg hk] at h
      rcases List.mem_cons.mp h with h | h
      · exact Or.inr (h ▸ List.mem_cons_self _ _)
      · rcases ih h with h | h
        · exact Or.inl h
        · exact Or.inr (List.mem_cons_of_mem _ h)

theorem mem_keys_assocSet {m : List (String × α)} (k : String) (v : α) {k' : String}
    (h : k' ∈ assocKeys m) : k' ∈ assocKeys (assocSet m k v) := by
  by_cases hk : k ∈ assocKeys m
  · rwa [assocKeys_assocSet_of_mem v hk]
  · rw [assocKeys_assocSet_of_not_mem v hk]
    exact List.mem_append_left _ h

theorem self_mem_keys_assocSet (m : List (String × α)) (k : String) (v : α) :
    k ∈ assocKeys (assocSet m k v) :=
  assocGet_mem_keys (assocGet_assocSet_self m k v)

/-- The status the memoised DFS computes for a node, per the canonical
uniformity predicate. -/
def canonStatus (tree : OuTree) (vals : String → Option V)
    (equals : Option V → Option V → Bool) (x : String) : StatusOf V :=
  if uniformAt tree vals equals x then .uniform (vals x) else .mixed

/-- Every memo entry concerns a tree node and carries its canonical status. -/
def MemoOk (tree : OuTree) (vals : String → Option V)
    (equals : Option V → Option V → Bool)
    (memo : List (String × StatusOf V)) : Prop :=
  ∀ p ∈ memo, p.1 ∈ assocKeys tree.byId ∧ p.2 = canonStatus tree vals equals p.1

theorem memoOk_assocSet {tree : OuTree} {vals : String → Option V}
    {equals : Option V → Option V → Bool} {memo : List (String × StatusOf V)}
    (h : MemoOk tree vals equals memo) {x : String}
    (hx : x ∈ assocKeys tree.byId) :
    MemoOk tree vals equals (assocSet memo x (canonStatus tree vals equals x)) := by
  intro p hp
  rcases mem_assocSet hp with hp | hp
  · subst hp; exact ⟨hx, rfl⟩
  · exact h p hp

/-- Main lemma: in a well-formed tree, `computeStatus` run on a node with a
sound memo and a `visiting` set of strict ancestors succeeds, returns the
canonical status, keeps the memo sound, and only grows it (recording the
node itself). -/
theorem computeStatus_ok {tree : OuTree} (wf : WfTree tree)
    (vals : String → Option V) (equals : Option V → Option V → Bool) :
    ∀ (n : Nat) (x : String) (d : Nat), HasDist tree x d →
      n = tree.byId.length - d →
      ∀ (fuel : Nat) (memo : List (String × StatusOf V)) (visiting : List String),
        MemoOk tree vals equals memo →
        (∀ v ∈ visiting, ∃ dv, HasDist tree v dv ∧ dv < d) →
        n + 1 ≤ fuel →
        ∃ memo',
          computeStatus tree vals equals fuel memo visiting x =
            .ok (canonStatus tree vals equals x, memo') ∧
          MemoOk tree vals equals memo' ∧
          (∀ k ∈ assocKeys memo, k ∈ assocKeys memo') ∧
          x ∈ assocKeys memo' := by
  intro n
  induction n using Nat.strong_induction_on with
  | _ n ih =>
    intro x d hd hn fuel memo visiting hmemo hvis hfuel
    have hdlt := hasDist_lt_length wf hd
    obtain ⟨fuel', rfl⟩ : ∃ f', fuel = f' + 1 := ⟨fuel - 1, by omega⟩
    rw [computeStatus]
    cases hcache : assocGet memo x with
    | some cached =>
      have hc := hmemo (x, cached) (mem_of_assocGet_eq_some hcache)
      refine ⟨memo, ?_, hmemo, fun k hk => hk, assocGet_mem_keys hcache⟩
      have hc2 : cached = canonStatus tree vals equals x := hc.2
      simp only [hcache, hc2, exceptPure]
    | none =>
      simp only [hcache]
      have hxvis : x ∉ visiting := by
        intro hx
        obtain ⟨dv, hdv, hlt⟩ := hvis x hx
        have := hasDist_unique hd hdv
        omega
      rw [if_neg hxvis]
      have hvis' : ∀ v ∈ visiting ++ [x], ∃ dv, HasDist tree v dv ∧ dv < d + 1 := by
        intro v hv
        rcases List.mem_append.mp hv with hv | hv
        · obtain ⟨dv, hdv, hlt⟩ := hvis v hv
          exact ⟨dv, hdv, by omega⟩
        · rw [List.mem_singleton] at hv
          subst hv
          exact ⟨d, hd, by omega⟩
      have hloop : ∀ (cs : List String), (∀ c ∈ cs, childEdge tree x c) →
          ∀ (memo₀ : List (String × StatusOf V)), MemoOk tree vals equals memo₀ →
          ∃ memo₁,
            statusChildLoop equals
              (fun m c => computeStatus tree vals equals fuel' m (visiting ++ [x]) c)
              (vals x) x cs memo₀ =
              .ok ((if cs.all (fun c => uniformAt tree vals equals c &&
                      equals (vals c) (vals x))
                    then StatusOf.uniform (vals x) else StatusOf.mixed),
                   assocSet memo₁ x
                    (if cs.all (fun c => uniformAt tree vals equals c &&
                       equals (vals c) (vals x))
                     then StatusOf.uniform (vals x) else StatusOf.mixed)) ∧
            MemoOk tree vals equals memo₁ ∧
            (∀ k ∈ assocKeys memo₀, k ∈ assocKeys memo₁) := by
        intro cs
        induction cs with
        | nil =>
          intro _ memo₀ hm₀
          exact ⟨memo₀, by rw [statusChildLoop]; simp [exceptPure], hm₀, fun k hk => hk⟩
        | cons c rest ihcs =>
          intro hcs memo₀ hm₀
          have hcedge : childEdge tree x c := hcs c (List.mem_cons_self _ _)
          have hdc : HasDist tree c (d + 1) := childEdge_dist wf hcedge hd
          obtain ⟨memoc, hrun, hmok, hgrow, hcin⟩ :=
            ih (tree.byId.length - (d + 1)) (by omega) c (d + 1) hdc rfl fuel'
              memo₀ (visiting ++ [x]) hm₀ hvis' (by omega)
          rw [statusChildLoop, hrun, exceptBind_ok]
          by_cases huc : uniformAt tree vals equals c = true
          · rw [show canonStatus tree vals equals c = .uniform (vals c) from by
              rw [canonStatus, if_pos huc]]
            simp only []
            by_cases heq : equals (vals c) (vals x) = true
            · rw [if_pos heq]
              obtain ⟨memo₁, hl, hm₁, hg₁⟩ :=
                ihcs (fun c' h' => hcs c' (List.mem_cons_of_mem _ h')) memoc hmok
              refine ⟨memo₁, ?_, hm₁, fun k hk => hg₁ k (hgrow k hk)⟩
              rw [hl]
              have hall : (c :: rest).all (fun c => uniformAt tree vals equals c &&
                  equals (vals c) (vals x)) =
                  rest.all (fun c => uniformAt tree vals equals c &&
                    equals (vals c) (vals x)) := by
                rw [List.all_cons, huc, heq]
                rfl
              rw [hall]
            · rw [if_neg heq]
              refine ⟨memoc, ?_, hmok, hgrow⟩
              have heqf : equals (vals c) (vals x) = false := by
                cases hb : equals (vals c) (vals x) with
                | false => rfl
                | true => exact absurd hb heq
              have hall : (c :: rest).all (fun c => uniformAt tree vals equals c &&
                  equals (vals c) (vals x)) = false := by
                simp [List.all_cons, heqf]
              rw [hall]
              simp [exceptPure]
          · rw [show canonStatus tree vals equals c = .mixed from by
              rw [canonStatus, if_neg huc]]
            simp only []
            refine ⟨memoc, ?_, hmok, hgrow⟩
            have hucf : uniformAt tree vals equals c = false := by
              cases hb : uniformAt tree vals equals c with
              | false => rfl
              | true => exact absurd hb huc
            have hall : (c :: rest).all (fun c => uniformAt tree vals equals c &&
                equals (vals c) (vals x)) = false := by
              simp [List.all_cons, hucf]
            rw [hall]
            simp [exceptPure]
      obtain ⟨memo₁, hl, hm₁, hg₁⟩ := hloop ((assocGet tree.children x).getD [])
        (fun c hc => hc) memo hmemo
      have hcanon : canonStatus tree vals equals x =
          (if ((assocGet tree.children x).getD []).all
              (fun c => uniformAt tree vals equals c && equals (vals c) (vals x))
           then StatusOf.uniform (vals x) else StatusOf.mixed) := by
        rw [canonStatus, uniformAt_unfold wf vals equals hd]
      refine ⟨assocSet memo₁ x (canonStatus tree vals equals x), ?_, ?_, ?_, ?_⟩
      · rw [hl, hcanon]
      · exact memoOk_assocSet hm₁ (hasDist_mem_keys hd)
      · intro k hk
        exact mem_keys_assocSet _ _ (hg₁ k hk)
      · exact self_mem_keys_assocSet _ _ _

theorem statusFold_ok {tree : OuTree} (wf : WfTree tree)
    (vals : String → Option V) (equals : Option V → Option V → Bool) :
    ∀ (ids : List String), (∀ i ∈ ids, i ∈ assocKeys tree.byId) →
      ∀ (memo : List (String × StatusOf V)), MemoOk tree vals equals memo →
      ∃ memo',
        (ids.foldlM (fun statusById id => do
          let (_, statusById) ← computeStatus tree vals equals
            (tree.byId.length + 2) statusById [] id
          pure statusById) memo) = .ok memo' ∧
        MemoOk tree vals equals memo' ∧
        (∀ k ∈ assocKeys memo, k ∈ assocKeys memo') ∧
        (∀ i ∈ ids, i ∈ assocKeys memo') := by
  intro ids
  induction ids with
  | nil =>
    intro _ memo hm
    refine ⟨memo, by rw [List.foldlM_nil, exceptPure], hm, fun k hk => hk, ?_⟩
    intro i hi
    simp at hi
  | cons i rest ihids =>
    intro hids memo hm
    obtain ⟨d, hd⟩ := wf.chainTotal i (hids i (List.mem_cons_self _ _))
    have hdlt := hasDist_lt_length wf hd
    obtain ⟨memo₁, hrun, hm₁, hg₁, hin₁⟩ :=
      computeStatus_ok wf vals equals (tree.byId.length - d) i d hd rfl
        (tree.byId.length + 2) memo [] hm (by simp) (by omega)
    obtain ⟨memo', hfold, hm', hg', hin'⟩ :=
      ihids (fun j hj => hids j (List.mem_cons_of_mem _ hj)) memo₁ hm₁
    refine ⟨memo', ?_, hm', fun k hk => hg' k (hg₁ k hk), ?_⟩
    · simp only [List.foldlM_cons, hrun, exceptBind_ok, exceptPure]
      exact hfold
    · intro j hj
      rcases List.mem_cons.mp hj with hj | hj
      · subst hj; exact hg' j hin₁
      · exact hin' j hj

/-- The condition under which the collection loop pushes `(id, st)`. -/
def pushCond (tree : OuTree) (equals : Option V → Option V → Bool)
    (statusById : List (String × StatusOf V)) (id : String) (st : StatusOf V) :
    Prop :=
  match st with
  | .mixed => False
  | .uniform v =>
    match ((assocGet tree.byId id).map (·.parentId)).join with
    | none => True
    | some pid =>
      match assocGet statusById pid with
      | none => True
      | some .mixed => True
      | some (.uniform pv) => equals pv v = false

/-- The body of the collection loop of `maximalUniformSubtreeRoots`
(lines 739-756). -/
def collectStep (tree : OuTree) (equals : Option V → Option V → Bool)
    (statusById : List (String × StatusOf V)) :
    List String → (String × StatusOf V) → List String :=
  fun result p =>
    let (id, st) := p
    match st with
    | .mixed => result
    | .uniform v =>
      let parentId := ((assocGet tree.byId id).map (·.parentId)).join
      match parentId with
      | none => result ++ [id]
      | some pid =>
        match assocGet statusById pid with
        | none => result ++ [id]
        | some .mixed => result ++ [id]
        | some (.uniform pv) =>
          if equals pv v then result else result ++ [id]

theorem collectStep_push (tree : OuTree) (equals : Option V → Option V → Bool)
    (statusById : List (String × StatusOf V)) (result : List String)
    (p : String × StatusOf V) (h : pushCond tree equals statusById p.1 p.2) :
    collectStep tree equals statusById result p = result ++ [p.1] := by
  obtain ⟨id, st⟩ := p
  cases st with
  | mixed => exact absurd h (by simp [pushCond])
  | uniform v =>
    simp only [pushCond] at h
    simp only [collectStep]
    cases hpar : ((assocGet tree.byId id).map (·.parentId)).join with
    | none => simp [hpar]
    | some pid =>
      simp only [hpar]
      simp only [hpar] at h
      cases hps : assocGet statusById pid with
      | none => simp [hps]
      | some pst =>
        simp only [hps] at h ⊢
        cases pst with
        | mixed => simp
        | uniform pv =>
          simp only [] at h
          simp only []
          rw [if_neg (by rw [h]; exact Bool.false_ne_true)]

theorem collectStep_skip (tree : OuTree) (equals : Option V → Option V → Bool)
    (statusById : List (String × StatusOf V)) (result : List String)
    (p : String × StatusOf V) (h : ¬ pushCond tree equals statusById p.1 p.2) :
    collectStep tree equals statusById result p = result := by
  obtain ⟨id, st⟩ := p
  cases st with
  | mixed => simp [collectStep]
  | uniform v =>
    simp only [pushCond] at h
    simp only [collectStep]
    cases hpar : ((assocGet tree.byId id).map (·.parentId)).join with
    | none =>
      simp only [hpar] at h
      exact absurd trivial h
    | some pid =>
      simp only [hpar]
      simp only [hpar] at h
      cases hps : assocGet statusById pid with
      | none =>
        simp only [hps] at h
        exact absurd trivial h
      | some pst =>
        simp only [hps] at h ⊢
        cases pst with
        | mixed => exact absurd trivial h
        | uniform pv =>
          simp only [] at h
          simp only []
          rw [if_pos (by
            cases hb : equals pv v with
            | true => rfl
            | false => exact absurd hb h)]

theorem collect_mem {tree : OuTree} {equals : Option V → Option V → Bool}
    (statusById : List (String × StatusOf V)) :
    ∀ (l : List (String × StatusOf V)) (init : List String) (y : String),
      y ∈ l.foldl (collectStep tree equals statusById) init ↔
      y ∈ init ∨ ∃ p ∈ l, y = p.1 ∧ pushCond tree equals statusById p.1 p.2 := by
  intro l
  induction l with
  | nil =>
    intro init y
    simp [List.foldl_nil]
  | cons p rest ihl =>
    intro init y
    rw [List.foldl_cons]
    by_cases hc : pushCond tree equals statusById p.1 p.2
    · rw [collectStep_push tree equals statusById init p hc, ihl]
      constructor
      · intro h
        rcases h with h | ⟨q, hq, hy, hcq⟩
        · rcases List.mem_append.mp h with h | h
          · exact Or.inl h
          · rw [List.mem_singleton] at h
            exact Or.inr ⟨p, List.mem_cons_self _ _, h, hc⟩
        · exact Or.inr ⟨q, List.mem_cons_of_mem _ hq, hy, hcq⟩
      · intro h
        rcases h with h | ⟨q, hq, hy, hcq⟩
        · exact Or.inl (List.mem_append_left _ h)
        · rcases List.mem_cons.mp hq with hq | hq
          · subst hq
            exact Or.inl (List.mem_append_right _ (by simp [hy]))
          · exact Or.inr ⟨q, hq, hy, hcq⟩
    · rw [collectStep_skip tree equals statusById init p hc, ihl]
      constructor
      · intro h
        rcases h with h | ⟨q, hq, hy, hcq⟩
        · exact Or.inl h
        · exact Or.inr ⟨q, List.mem_cons_of_mem _ hq, hy, hcq⟩
      · intro h
        rcases h with h | ⟨q, hq, hy, hcq⟩
        · exact Or.inl h
        · rcases List.mem_cons.mp hq with hq | hq
          · subst hq
            exact absurd hcq hc
          · exact Or.inr ⟨q, hq, hy, hcq⟩

theorem option_join_some (a : Option α) : (some a).join = a := rfl

/-- In a well-formed tree, a node starts a maximal uniform region iff it is
uniform and has no parent node that is uniform with an `equals`-equal value. -/
def MaximalCond (tree : OuTree) (vals : String → Option V)
    (equals : Option V → Option V → Bool) (id : String) : Prop :=
  uniformAt tree vals equals id = true ∧
  ∀ n pid, assocGet tree.byId id = some n → n.parentId = some pid →
    uniformAt tree vals equals pid = true → equals (vals pid) (vals id) = false

theorem maximalUniformSubtreeRoots_eq (tree : OuTree) (vals : String → Option V)
    (equals : Option V → Option V → Bool) :
    maximalUniformSubtreeRoots tree vals equals =
      (match (tree.roots ++ assocKeys tree.byId).foldlM
          (fun statusById id => do
            let (_, statusById) ← computeStatus tree vals equals
              (tree.byId.length + 2) statusById [] id
            pure statusById) [] with
       | .error e => .error e
       | .ok statusById =>
         .ok (statusById.foldl (collectStep tree equals statusById) [])) := by
  rw [maximalUniformSubtreeRoots]
  cases hfold : (tree.roots ++ assocKeys tree.byId).foldlM
      (fun statusById id => do
        let (_, statusById) ← computeStatus tree vals equals
          (tree.byId.length + 2) statusById [] id
        pure statusById) [] with
  | error e => rfl
  | ok statusById => rfl

theorem maximalUniformSubtreeRoots_wf_char {tree : OuTree} (wf : WfTree tree)
    (vals : String → Option V) (equals : Option V → Option V → Bool) :
    ∃ res, maximalUniformSubtreeRoots tree vals equals = .ok res ∧
      ∀ id, id ∈ res ↔
        id ∈ assocKeys tree.byId ∧ MaximalCond tree vals equals id := by
  obtain ⟨memo, hfold, hmok, _, hall⟩ := statusFold_ok wf vals equals
    (tree.roots ++ assocKeys tree.byId)
    (by
      intro i hi
      rcases List.mem_append.mp hi with hi | hi
      · exact wf.rootsSub i hi
      · exact hi)
    [] (by intro p hp; simp at hp)
  have hmemo_keys : ∀ k, k ∈ assocKeys memo ↔ k ∈ assocKeys tree.byId := by
    intro k
    constructor
    · intro hk
      obtain ⟨st, hst⟩ := assocGet_isSome_of_mem_keys hk
      exact (hmok (k, st) (mem_of_assocGet_eq_some hst)).1
    · intro hk
      exact hall k (List.mem_append_right _ hk)
  refine ⟨memo.foldl (collectStep tree equals memo) [], ?_, ?_⟩
  · rw [maximalUniformSubtreeRoots_eq, hfold]
  · intro id
    rw [collect_mem memo memo [] id]
    simp only [List.not_mem_nil, false_or]
    constructor
    · rintro ⟨p, hp, rfl, hcond⟩
      obtain ⟨hkept, hcanon⟩ := hmok p hp
      refine ⟨hkept, ?_, ?_⟩
      · -- the pushed status is uniform, so the canonical status is uniform
        rw [hcanon] at hcond
        by_cases hu : uniformAt tree vals equals p.1 = true
        · exact hu
        · exact absurd hcond (by
            rw [canonStatus, if_neg hu]
            simp [pushCond])
      · intro n pid hby hpid hupid
        rw [hcanon] at hcond
        have hu : uniformAt tree vals equals p.1 = true := by
          by_cases hu : uniformAt tree vals equals p.1 = true
          · exact hu
          · exact absurd hcond (by
              rw [canonStatus, if_neg hu]
              simp [pushCond])
        rw [canonStatus, if_pos hu] at hcond
        simp only [pushCond, hby, Option.map_some', hpid, option_join_some] at hcond
        have hpkeys : pid ∈ assocKeys tree.byId := wf.parentsClosed p.1 n pid hby hpid
        obtain ⟨pst, hpst⟩ := assocGet_isSome_of_mem_keys ((hmemo_keys pid).mpr hpkeys)
        have hpcanon := (hmok (pid, pst) (mem_of_assocGet_eq_some hpst)).2
        rw [hpst] at hcond
        have hpc : pst = canonStatus tree vals equals pid := hpcanon
        rw [hpc] at hcond
        simp only [canonStatus, hupid, if_true] at hcond
        exact hcond
    · rintro ⟨hkept, hu, hpar⟩
      obtain ⟨st, hst⟩ := assocGet_isSome_of_mem_keys ((hmemo_keys id).mpr hkept)
      have hcanon := (hmok (id, st) (mem_of_assocGet_eq_some hst)).2
      refine ⟨(id, st), mem_of_assocGet_eq_some hst, rfl, ?_⟩
      rw [hcanon, canonStatus, if_pos hu]
      simp only [pushCond]
      cases hpj : ((assocGet tree.byId id).map (·.parentId)).join with
      | none => trivial
      | some pid =>
        simp only []
        -- recover the byId node behind the parent lookup
        cases hby : assocGet tree.byId id with
        | none => rw [hby] at hpj; exact Option.noConfusion hpj
        | some n =>
          rw [hby, Option.map_some'] at hpj
          have hpid : n.parentId = some pid := hpj
          have hpkeys : pid ∈ assocKeys tree.byId := wf.parentsClosed id n pid hby hpid
          obtain ⟨pst, hpst⟩ := assocGet_isSome_of_mem_keys ((hmemo_keys pid).mpr hpkeys)
          have hpc : pst = canonStatus tree vals equals pid :=
            (hmok (pid, pst) (mem_of_assocGet_eq_some hpst)).2
          by_cases hup : uniformAt tree vals equals pid = true
          · have hval : pst = .uniform (vals pid) := by
              rw [hpc, canonStatus, if_pos hup]
            simp only [hpst, hval]
            exact hpar n pid hby hpid hup
          · have hval : pst = StatusOf.mixed := by
              rw [hpc, canonStatus, if_neg hup]
            simp only [hpst, hval]

/-! ## Uniformity as subtree-wide value sharing -/

theorem uniformAt_shares {tree : OuTree} (wf : WfTree tree)
    {vals : String → Option V} {equals : Option V → Option V → Bool}
    (hsymm : ∀ a b, equals a b = equals b a)
    (htrans : ∀ a b c, equals a b = true → equals b c = true → equals a c = true)
    (hrefl : ∀ y ∈ assocKeys tree.byId, equals (vals y) (vals y) = true)
    {x : String} (hx : x ∈ assocKeys tree.byId)
    (hu : uniformAt tree vals equals x = true) :
    ∀ y, Subtree tree x y → equals (vals y) (vals x) = true := by
  intro y hs
  induction hs with
  | refl => exact hrefl x hx
  | @step p c hsub he ih =>
    obtain ⟨dp, hdp⟩ := wf.chainTotal p (subtree_kept wf hx hsub)
    obtain ⟨dx, hdx⟩ := wf.chainTotal x hx
    have hup : uniformAt tree vals equals p = true :=
      uniformAt_subtree wf hsub hdx hu
    have hchild := uniformAt_child wf hdp hup he
    exact htrans (vals c) (vals p) (vals x) hchild.2 ih

theorem shares_uniformAt {tree : OuTree} (wf : WfTree tree)
    {vals : String → Option V} {equals : Option V → Option V → Bool}
    (hsymm : ∀ a b, equals a b = equals b a)
    (htrans : ∀ a b c, equals a b = true → equals b c = true → equals a c = true) :
    ∀ (n : Nat) (x : String) (d : Nat), HasDist tree x d →
      n = tree.byId.length - d →
      (∀ y, Subtree tree x y → equals (vals y) (vals x) = true) →
      uniformAt tree vals equals x = true := by
  intro n
  induction n using Nat.strong_induction_on with
  | _ n ih =>
    intro x d hd hn hshare
    have hdlt := hasDist_lt_length wf hd
    rw [uniformAt_unfold wf vals equals hd, List.all_eq_true]
    intro c hc
    have hdc : HasDist tree c (d + 1) := childEdge_dist wf hc hd
    have hxc : Subtree tree x c := Subtree.step (Subtree.refl x) hc
    have hcx : equals (vals c) (vals x) = true := hshare c hxc
    rw [Bool.and_eq_true]
    refine ⟨?_, hcx⟩
    apply ih (tree.byId.length - (d + 1)) (by omega) c (d + 1) hdc rfl
    intro y hy
    have hyx : equals (vals y) (vals x) = true := hshare y (Subtree.trans hxc hy)
    have hxc' : equals (vals x) (vals c) = true := by rw [hsymm]; exact hcx
    exact htrans (vals y) (vals x) (vals c) hyx hxc'

/-! ## `equalBudgets` lemmas (spec section 4.4 equality predicate) -/

theorem equalBudgets_some_iff (a b : EffectiveBudget) :
    equalBudgets (some a) (some b) = true ↔
      a.amount = b.amount ∧ a.currency = b.currency ∧
        a.thresholds.getD [] = b.thresholds.getD [] := by
  simp [equalBudgets, Bool.and_eq_true, beq_iff_eq, and_assoc]

theorem equalBudgets_none_left (b : Option EffectiveBudget) :
    equalBudgets none b = false := rfl

theorem equalBudgets_none_right (a : Option EffectiveBudget) :
    equalBudgets a none = false := by
  cases a <;> rfl

theorem equalBudgets_refl_some (b : EffectiveBudget) :
    equalBudgets (some b) (some b) = true := by
  rw [equalBudgets_some_iff]
  exact ⟨rfl, rfl, rfl⟩

theorem equalBudgets_symm (a b : Option EffectiveBudget) :
    equalBudgets a b = equalBudgets b a := by
  cases a with
  | none => rw [equalBudgets_none_left, equalBudgets_none_right]
  | some a =>
    cases b with
    | none => rw [equalBudgets_none_left, equalBudgets_none_right]
    | some b =>
      by_cases h : equalBudgets (some a) (some b) = true
      · obtain ⟨h1, h2, h3⟩ := (equalBudgets_some_iff a b).mp h
        rw [h, ((equalBudgets_some_iff b a).mpr ⟨h1.symm, h2.symm, h3.symm⟩)]
      · have hf : equalBudgets (some a) (some b) = false := by
          cases hb : equalBudgets (some a) (some b) with
          | false => rfl
          | true => exact absurd hb h
        have hg : equalBudgets (some b) (some a) = false := by
          cases hb : equalBudgets (some b) (some a) with
          | false => rfl
          | true =>
            obtain ⟨h1, h2, h3⟩ := (equalBudgets_some_iff b a).mp hb
            exact absurd ((equalBudgets_some_iff a b).mpr ⟨h1.symm, h2.symm, h3.symm⟩)
              (by rw [hf]; exact Bool.false_ne_true)
        rw [hf, hg]

theorem equalBudgets_trans (a b c : Option EffectiveBudget)
    (h1 : equalBudgets a b = true) (h2 : equalBudgets b c = true) :
    equalBudgets a c = true := by
  cases a with
  | none => rw [equalBudgets_none_left] at h1; exact Bool.noConfusion h1
  | some a =>
    cases b with
    | none => rw [equalBudgets_none_right] at h1; exact Bool.noConfusion h1
    | some b =>
      cases c with
      | none => rw [equalBudgets_none_right] at h2; exact Bool.noConfusion h2
      | some c =>
        obtain ⟨x1, x2, x3⟩ := (equalBudgets_some_iff a b).mp h1
        obtain ⟨y1, y2, y3⟩ := (equalBudgets_some_iff b c).mp h2
        exact (equalBudgets_some_iff a c).mpr
          ⟨x1.trans y1, x2.trans y2, x3.trans y3⟩

/-! ## Selector characterization (spec section 4.5) -/

theorem optionBind_some (a : α) (f : α → Option β) : (some a >>= f) = f a := rfl

theorem optionPure (a : α) : (pure a : Option α) = some a := rfl

/-- The attachment (if any) that `traverse` emits at a selected node. -/
def attachIfPositive (budgets : List (String × EffectiveBudget)) (t : String) :
    List OuBudgetAttachment :=
  match assocGet budgets t with
  | some budget =>
    match budget.amount with
    | some a =>
      if a ≠ 0 && a > 0 then
        [{ ouId := t, amount := a, currency := budget.currency,
           thresholds := budget.thresholds }]
      else []
    | none => []
  | none => []

theorem attachIfPositive_ouId {budgets : List (String × EffectiveBudget)}
    {t : String} {a : OuBudgetAttachment} (h : a ∈ attachIfPositive budgets t) :
    a.ouId = t := by
  rw [attachIfPositive] at h
  cases hb : assocGet budgets t with
  | none => rw [hb] at h; simp at h
  | some budget =>
    rw [hb] at h
    cases ha : budget.amount with
    | none => simp only [ha] at h; simp at h
    | some amt =>
      simp only [ha] at h
      by_cases hc : (amt ≠ 0 && amt > 0) = true
      · rw [if_pos hc] at h
        rw [List.mem_singleton] at h
        subst h
        rfl
      · rw [if_neg hc] at h
        simp at h

theorem traverseAttach_sel (tree : OuTree)
    (budgets : List (String × EffectiveBudget)) (H : List String) (fuel : Nat)
    {x : String} (hx : x ∈ H) :
    traverseAttach tree budgets H (fuel + 1) x false =
      some (attachIfPositive budgets x) := by
  cases hb : assocGet budgets x with
  | none => rw [traverseAttach, attachIfPositive]; simp [hx, hb]
  | some budget =>
    cases ha : budget.amount with
    | none => rw [traverseAttach, attachIfPositive]; simp [hx, hb, ha]
    | some amt =>
      rw [traverseAttach, attachIfPositive]
      simp only [hx, decide_True, Bool.not_false, Bool.and_true, if_true, hb, ha]
      rw [apply_ite some]

theorem traverseAttach_true {tree : OuTree} (wf : WfTree tree)
    (budgets : List (String × EffectiveBudget)) (H : List String) :
    ∀ (n : Nat) (x : String) (d : Nat), HasDist tree x d →
      n = tree.byId.length - d → ∀ fuel, n + 1 ≤ fuel →
      traverseAttach tree budgets H fuel x true = some [] := by
  intro n
  induction n using Nat.strong_induction_on with
  | _ n ih =>
    intro x d hd hn fuel hfuel
    have hdlt := hasDist_lt_length wf hd
    obtain ⟨fuel', rfl⟩ : ∃ f', fuel = f' + 1 := ⟨fuel - 1, by omega⟩
    rw [traverseAttach]
    simp only [Bool.not_true, Bool.and_false, if_false]
    have hloop : ∀ (cs : List String), (∀ c ∈ cs, childEdge tree x c) →
        ∀ (acc : List OuBudgetAttachment),
        cs.foldlM (fun acc childId => do
          let atts ← traverseAttach tree budgets H fuel' childId
            (true || decide (x ∈ H))
          pure (acc ++ atts)) acc = some acc := by
      intro cs
      induction cs with
      | nil => intro _ acc; rw [List.foldlM_nil, optionPure]
      | cons c rest ihcs =>
        intro hcs acc
        have hdc : HasDist tree c (d + 1) :=
          childEdge_dist wf (hcs c (List.mem_cons_self _ _)) hd
        have hchild : traverseAttach tree budgets H fuel' c true = some [] :=
          ih (tree.byId.length - (d + 1)) (by omega) c (d + 1) hdc rfl fuel'
            (by omega)
        rw [List.foldlM_cons]
        have htrue : (true || decide (x ∈ H)) = true := Bool.true_or _
        rw [htrue, hchild, optionBind_some, List.append_nil, optionPure,
          optionBind_some]
        exact ihcs (fun c' hc' => hcs c' (List.mem_cons_of_mem _ hc')) acc
    exact hloop ((assocGet tree.children x).getD []) (fun c hc => hc) []

/-- Main selector lemma: starting at a node with no selected ancestor, in a
well-formed tree whose `H` is an antichain (no `H` member strictly below
another), the traversal succeeds and emits exactly one attachment for every
`H`-member of the subtree whose effective budget is positive. -/
theorem traverseAttach_ok {tree : OuTree} (wf : WfTree tree)
    (budgets : List (String × EffectiveBudget)) (H : List String)
    (hanti : ∀ t ∈ H, ∀ y, Subtree tree t y → y ≠ t → y ∉ H) :
    ∀ (n : Nat) (x : String) (d : Nat), HasDist tree x d →
      n = tree.byId.length - d → ∀ fuel, n + 1 ≤ fuel →
      ∃ atts, traverseAttach tree budgets H fuel x false = some atts ∧
        (∀ a, a ∈ atts ↔ ∃ t ∈ H, Subtree tree x t ∧
          a ∈ attachIfPositive budgets t) ∧
        (atts.map (·.ouId)).Nodup ∧
        (∀ a ∈ atts, Subtree tree x a.ouId) := by
  intro n
  induction n using Nat.strong_induction_on with
  | _ n ih =>
    intro x d hd hn fuel hfuel
    have hdlt := hasDist_lt_length wf hd
    obtain ⟨fuel', rfl⟩ : ∃ f', fuel = f' + 1 := ⟨fuel - 1, by omega⟩
    by_cases hxH : x ∈ H
    · refine ⟨attachIfPositive budgets x, traverseAttach_sel tree budgets H fuel' hxH,
        ?_, ?_, ?_⟩
      · intro a
        constructor
        · intro ha
          exact ⟨x, hxH, Subtree.refl x, ha⟩
        · rintro ⟨t, htH, hsub, hat⟩
          have : t = x := by
            by_contra hne
            exact hanti x hxH t hsub hne htH
          subst this
          exact hat
      · cases hb : assocGet budgets x with
        | none => rw [attachIfPositive]; simp [hb]
        | some budget =>
          cases ha : budget.amount with
          | none => rw [attachIfPositive]; simp [hb, ha]
          | some amt =>
            rw [attachIfPositive]
            simp only [hb, ha]
            split <;> simp
      · intro a ha
        rw [attachIfPositive_ouId ha]
        exact Subtree.refl x
    · rw [traverseAttach]
      have hcond : (decide (x ∈ H) && !false) = false := by simp [hxH]
      rw [hcond, if_neg Bool.false_ne_true]
      have hfalse : (false || decide (x ∈ H)) = false := by simp [hxH]
      rw [hfalse]
      have hloop : ∀ (cs : List String), cs.Nodup → (∀ c ∈ cs, childEdge tree x c) →
          ∀ (acc : List OuBudgetAttachment),
          ∃ L, cs.foldlM (fun acc childId => do
              let atts ← traverseAttach tree budgets H fuel' childId false
              pure (acc ++ atts)) acc = some (acc ++ L) ∧
            (∀ a, a ∈ L ↔ ∃ c ∈ cs, ∃ t ∈ H, Subtree tree c t ∧
              a ∈ attachIfPositive budgets t) ∧
            (L.map (·.ouId)).Nodup ∧
            (∀ a ∈ L, ∃ c ∈ cs, Subtree tree c a.ouId) := by
        intro cs
        induction cs with
        | nil =>
          intro _ _ acc
          refine ⟨[], by rw [List.foldlM_nil, List.append_nil, optionPure], ?_, by simp, by simp⟩
          intro a
          simp
        | cons c rest ihcs =>
          intro hnd hcs acc
          rw [List.nodup_cons] at hnd
          have hcedge : childEdge tree x c := hcs c (List.mem_cons_self _ _)
          have hdc : HasDist tree c (d + 1) := childEdge_dist wf hcedge hd
          obtain ⟨attsc, hrunc, hmemc, hndc, hsubc⟩ :=
            ih (tree.byId.length - (d + 1)) (by omega) c (d + 1) hdc rfl fuel'
              (by omega)
          obtain ⟨L', hrun', hmem', hnd', hsub'⟩ :=
            ihcs hnd.2 (fun c' hc' => hcs c' (List.mem_cons_of_mem _ hc')) (acc ++ attsc)
          refine ⟨attsc ++ L', ?_, ?_, ?_, ?_⟩
          · rw [List.foldlM_cons, hrunc, optionBind_some, optionPure,
              optionBind_some, hrun', List.append_assoc]
          · intro a
            rw [List.mem_append, hmemc a, hmem' a]
            constructor
            · intro h
              rcases h with ⟨t, ht, hs, hat⟩ | ⟨c', hc', t, ht, hs, hat⟩
              · exact ⟨c, List.mem_cons_self _ _, t, ht, hs, hat⟩
              · exact ⟨c', List.mem_cons_of_mem _ hc', t, ht, hs, hat⟩
            · rintro ⟨c', hc', t, ht, hs, hat⟩
              rcases List.mem_cons.mp hc' with hc' | hc'
              · subst hc'
                exact Or.inl ⟨t, ht, hs, hat⟩
              · exact Or.inr ⟨c', hc', t, ht, hs, hat⟩
          · rw [List.map_append, List.nodup_append]
            refine ⟨hndc, hnd', ?_⟩
            intro i hi hi'
            rw [List.mem_map] at hi hi'
            obtain ⟨a1, ha1, rfl⟩ := hi
            obtain ⟨a2, ha2, heq⟩ := hi'
            have hs1 : Subtree tree c a1.ouId := hsubc a1 ha1
            obtain ⟨c', hc', hs2⟩ := hsub' a2 ha2
            rw [heq] at hs2
            have hcomp := ancestors_comparable wf hs1 hs2
            have hdc' : HasDist tree c' (d + 1) :=
              childEdge_dist wf (hcs c' (List.mem_cons_of_mem _ hc')) hd
            have hcc' : c = c' := by
              rcases hcomp with hcc | hcc
              · exact subtree_dist_eq wf hcc hdc hdc' rfl
              · exact (subtree_dist_eq wf hcc hdc' hdc rfl).symm
            rw [hcc'] at hnd
            exact hnd.1 hc'
          · intro a ha
            rcases List.mem_append.mp ha with ha | ha
            · exact ⟨c, List.mem_cons_self _ _, hsubc a ha⟩
            · obtain ⟨c', hc', hs⟩ := hsub' a ha
              exact ⟨c', List.mem_cons_of_mem _ hc', hs⟩
      obtain ⟨L, hrun, hmem, hndL, hsubL⟩ :=
        hloop ((assocGet tree.children x).getD []) (wf.childrenNodup x)
          (fun c hc => hc) []
      refine ⟨L, by rw [hrun]; rfl, ?_, hndL, ?_⟩
      · intro a
        rw [hmem a]
        constructor
        · rintro ⟨c, hc, t, ht, hs, hat⟩
          exact ⟨t, ht, Subtree.trans (Subtree.step (Subtree.refl x) hc) hs, hat⟩
        · rintro ⟨t, ht, hs, hat⟩
          have hne : t ≠ x := fun he => hxH (he ▸ ht)
          rcases subtree_first_edge hs with rfl | ⟨c, hce, hcs⟩
          · exact absurd rfl hne
          · exact ⟨c, hce, t, ht, hcs, hat⟩
      · intro a ha
        obtain ⟨c, hc, hs⟩ := hsubL a ha
        exact Subtree.trans (Subtree.step (Subtree.refl x) hc) hs

/-! ## A decidable well-formedness check, sufficient for `WfTree` -/

/-- Executable well-formedness check on an `OuTree`, quantifying only over
the finitely many stored entries; `wfTree_of_check` transfers it to the
propositional `WfTree`. -/
def wfCheck (tree : OuTree) : Bool :=
  decide ((assocKeys tree.byId).Nodup) &&
  tree.byId.all (fun e =>
    match e.2.parentId with
    | none => true
    | some p => decide (p ∈ assocKeys tree.byId) &&
        decide (e.1 ∈ (assocGet tree.children p).getD [])) &&
  tree.children.all (fun e =>
    decide (((assocGet tree.children e.1).getD []).Nodup) &&
    ((assocGet tree.children e.1).getD []).all (fun c =>
      tree.byId.any (fun n => n.1 == c && n.2.parentId == some e.1))) &&
  tree.roots.all (fun r => decide (r ∈ assocKeys tree.byId)) &&
  (assocKeys tree.byId).all (fun k =>
    (parentChain tree (tree.byId.length + 1) k).isSome)

theorem wfTree_of_check {tree : OuTree} (h : wfCheck tree = true) : WfTree tree := by
  rw [wfCheck] at h
  simp only [Bool.and_eq_true, List.all_eq_true, decide_eq_true_eq] at h
  obtain ⟨⟨⟨⟨hnd, hpar⟩, hch⟩, hroots⟩, hchain⟩ := h
  refine ⟨hnd, ?_, ?_, ?_, hroots, ?_⟩
  · intro k n p hget hp
    have hm := hpar (k, n) (mem_of_assocGet_eq_some hget)
    simp only [hp, Bool.and_eq_true, decide_eq_true_eq] at hm
    exact hm.1
  · intro p c
    constructor
    · intro hce
      cases hgc : assocGet tree.children p with
      | none =>
        rw [childEdge, hgc] at hce
        simp at hce
      | some cs =>
        have h2 := hch (p, cs) (mem_of_assocGet_eq_some hgc)
        simp only [Bool.and_eq_true, List.all_eq_true, decide_eq_true_eq,
          List.any_eq_true] at h2
        obtain ⟨n, hnmem, hn⟩ := h2.2 c hce
        simp only [Bool.and_eq_true, beq_iff_eq] at hn
        have hcn : (c, n.2) ∈ tree.byId := by
          rw [← hn.1, Prod.mk.eta]
          exact hnmem
        exact ⟨n.2, assocGet_of_mem_nodup hnd hcn, hn.2⟩
    · rintro ⟨n, hget, hp⟩
      have hm := hpar (c, n) (mem_of_assocGet_eq_some hget)
      simp only [hp, Bool.and_eq_true, decide_eq_true_eq] at hm
      exact hm.2
  · intro p
    cases hgc : assocGet tree.children p with
    | none => simp
    | some cs =>
      have h2 := hch (p, cs) (mem_of_assocGet_eq_some hgc)
      simp only [Bool.and_eq_true, decide_eq_true_eq] at h2
      rw [hgc] at h2
      exact h2.1
  · intro k hk
    have hc := hchain k hk
    rw [Option.isSome_iff_exists] at hc
    obtain ⟨d, hd⟩ := hc
    exact ⟨d, parentChain_exact hd⟩

/-- In a well-formed tree every parentless stored node of which is listed
in the (singleton) roots list, the root reaches every stored node along
child edges. -/
theorem reach_root {tree : OuTree} (wf : WfTree tree) {r : String}
    (hroots : tree.roots = [r])
    (hr : ∀ k n, assocGet tree.byId k = some n → n.parentId = none →
      k ∈ tree.roots) :
    ∀ (d : Nat) (k : String), HasDist tree k d → Subtree tree r k := by
  intro d
  induction d using Nat.strong_induction_on with
  | _ d ih =>
    intro k hk
    obtain ⟨ou, hby⟩ := assocGet_isSome_of_mem_keys (hasDist_mem_keys hk)
    cases hp : ou.parentId with
    | none =>
      have hkr : k ∈ tree.roots := hr k ou hby hp
      rw [hroots, List.mem_singleton] at hkr
      subst hkr
      exact Subtree.refl k
    | some p =>
      obtain ⟨dp, hdp, rfl⟩ := hasDist_step hby hp hk
      exact Subtree.step (ih dp (by omega) p hdp)
        ((wf.childrenIff p k).mpr ⟨ou, hby, hp⟩)

theorem nodup_map_inj {l : List α} {f : α → β} (h : (l.map f).Nodup) :
    ∀ a ∈ l, ∀ b ∈ l, f a = f b → a = b := by
  induction l with
  | nil => intro a ha; simp at ha
  | cons x xs ih =>
    rw [List.map_cons, List.nodup_cons] at h
    intro a ha b hb heq
    rcases List.mem_cons.mp ha with ha1 | ha1 <;>
      rcases List.mem_cons.mp hb with hb1 | hb1
    · rw [ha1, hb1]
    · exfalso
      apply h.1
      rw [ha1] at heq
      rw [heq]
      exact List.mem_map_of_mem f hb1
    · exfalso
      apply h.1
      rw [hb1] at heq
      rw [← heq]
      exact List.mem_map_of_mem f ha1
    · exact ih h.2 a ha1 b hb1 heq

/-- Maximal uniform region roots form an antichain: no region root lies
strictly inside another region root's subtree. -/
theorem maximalCond_antichain {tree : OuTree} (wf : WfTree tree)
    {vals : String → Option V} {equals : Option V → Option V → Bool}
    (hsymm : ∀ a b, equals a b = equals b a)
    {t y : String} (ht : t ∈ assocKeys tree.byId)
    (hmt : MaximalCond tree vals equals t) (hs : Subtree tree t y) (hne : y ≠ t)
    (hmy : MaximalCond tree vals equals y) : False := by
  obtain ⟨p, hps, hpe⟩ := subtree_last_edge hs hne
  obtain ⟨n, hby, hpar⟩ := (wf.childrenIff p y).mp hpe
  obtain ⟨dt, hdt⟩ := wf.chainTotal t ht
  have hup : uniformAt tree vals equals p = true :=
    uniformAt_subtree wf hps hdt hmt.1
  obtain ⟨dp, hdp⟩ := wf.chainTotal p (subtree_kept wf ht hps)
  have hce := uniformAt_child wf hdp hup hpe
  have hfalse := hmy.2 n p hby hpar hup
  rw [hsymm (vals p) (vals y), hce.2] at hfalse
  exact Bool.noConfusion hfalse

/-- Every uniform node with a self-`equals` value lies inside a (unique
up to the antichain property) maximal uniform region, whose root carries an
`equals`-equal value. -/
theorem climb_to_maximal {tree : OuTree} (wf : WfTree tree)
    {vals : String → Option V} {equals : Option V → Option V → Bool}
    (hsymm : ∀ a b, equals a b = equals b a)
    (htrans : ∀ a b c, equals a b = true → equals b c = true →
      equals a c = true) :
    ∀ (d : Nat) (x : String), HasDist tree x d →
      uniformAt tree vals equals x = true →
      equals (vals x) (vals x) = true →
      ∃ t, t ∈ assocKeys tree.byId ∧ MaximalCond tree vals equals t ∧
        Subtree tree t x ∧ equals (vals t) (vals x) = true := by
  intro d
  induction d using Nat.strong_induction_on with
  | _ d ih =>
    intro x hd hu hself
    obtain ⟨ou, hby⟩ := assocGet_isSome_of_mem_keys (hasDist_mem_keys hd)
    cases hp : ou.parentId with
    | none =>
      refine ⟨x, hasDist_mem_keys hd, ⟨hu, ?_⟩, Subtree.refl x, hself⟩
      intro n pid hby' hp'
      rw [hby] at hby'
      injection hby' with hby'
      subst hby'
      rw [hp] at hp'
      exact Option.noConfusion hp'
    | some p =>
      obtain ⟨dp, hdp, rfl⟩ := hasDist_step hby hp hd
      by_cases hcase : uniformAt tree vals equals p = true ∧
          equals (vals p) (vals x) = true
      · obtain ⟨hup, hpx⟩ := hcase
        have hxp : equals (vals x) (vals p) = true := by
          rw [hsymm]; exact hpx
        have hpp : equals (vals p) (vals p) = true :=
          htrans _ _ _ hpx hxp
        obtain ⟨t, htk, hmt, hts, htp⟩ := ih dp (by omega) p hdp hup hpp
        exact ⟨t, htk, hmt,
          Subtree.step hts ((wf.childrenIff p x).mpr ⟨ou, hby, hp⟩),
          htrans _ _ _ htp hpx⟩
      · refine ⟨x, hasDist_mem_keys hd, ⟨hu, ?_⟩, Subtree.refl x, hself⟩
        intro n pid hby' hp' hupid
        rw [hby] at hby'
        injection hby' with hby'
        subst hby'
        rw [hp] at hp'
        injection hp' with hp'
        subst hp'
        cases he : equals (vals p) (vals x) with
        | false => rfl
        | true => exact absurd ⟨hupid, he⟩ hcase

/-- `selectOuBudgetAttachments` on a single-rooted well-formed tree whose
`H` is an antichain: it succeeds and emits exactly one attachment for every
`H`-member with a positive effective amount. -/
theorem selectOuBudgetAttachments_ok {tree : OuTree} (wf : WfTree tree)
    (budgets : List (String × EffectiveBudget)) {H : List String}
    (hanti : ∀ t ∈ H, ∀ y, Subtree tree t y → y ≠ t → y ∉ H)
    {r : String} (hroots : tree.roots = [r]) (hrk : r ∈ assocKeys tree.byId) :
    ∃ atts, selectOuBudgetAttachments tree budgets H = .ok atts ∧
      (∀ a, a ∈ atts ↔ ∃ t ∈ H, Subtree tree r t ∧
        a ∈ attachIfPositive budgets t) ∧
      (atts.map (·.ouId)).Nodup ∧
      (∀ a ∈ atts, Subtree tree r a.ouId) := by
  obtain ⟨dr, hdr⟩ := wf.chainTotal r hrk
  obtain ⟨atts, hrun, hmem, hnd, hsub⟩ := traverseAttach_ok wf budgets H hanti
    (tree.byId.length - dr) r dr hdr rfl (tree.byId.length + 2)
    (by have := hasDist_lt_length wf hdr; omega)
  refine ⟨atts, ?_, hmem, hnd, hsub⟩
  rw [selectOuBudgetAttachments, hroots, List.foldlM_cons]
  simp only [hrun, List.nil_append, List.foldlM_nil]
  rfl

/-! ## C5: the cycle guard -/

/-- An input accepted by `buildOuTree` (exactly one null-parent entry) whose
two other nodes form a parent cycle. -/
def exC5Ous : List OuNode := [⟨"r", none⟩, ⟨"a", some "b"⟩, ⟨"b", some "a"⟩]

def exC5Tree : OuTree :=
  ⟨[("r", ⟨"r", none⟩), ("a", ⟨"a", some "b"⟩), ("b", ⟨"b", some "a"⟩)],
   [("b", ["a"]), ("a", ["b"])], ["r"]⟩

/-- C5 counterexample: `buildOuTree` accepts an input whose non-root nodes
form a parent cycle (the single-root check does not prevent cycles), and
the classifier then does reach the cycle guard. -/
theorem maximalUniformSubtreeRoots_cycle_reachable :
    buildOuTree exC5Ous = Except.ok exC5Tree ∧
    maximalUniformSubtreeRoots exC5Tree (fun _ => (none : Option EffectiveBudget))
      equalBudgets = Except.error (PlanError.cycleAt "a") :=
  ⟨by rfl, by rfl⟩

/-- C5 (amended): on a tree accepted by `buildOuTree` that moreover passes
the executable well-formedness check `wfCheck` (in particular, every
node's parent chain terminates), `maximalUniformSubtreeRoots` never
returns an error — the cycle guard is unreachable — for every value map
and equality predicate. -/
theorem maximalUniformSubtreeRoots_no_cycle_error {ous : List OuNode}
    {tree : OuTree} ( _hok : buildOuTree ous = Except.ok tree)
    (hwf : wfCheck tree = true) (vals : String → Option V)
    (equals : Option V → Option V → Bool) (e : PlanError) :
    maximalUniformSubtreeRoots tree vals equals ≠ Except.error e := by
  obtain ⟨res, hres, _⟩ :=
    maximalUniformSubtreeRoots_wf_char (wfTree_of_check hwf) vals equals
  rw [hres]
  exact fun h => Except.noConfusion h

def exC5OkOus : List OuNode := [⟨"r", none⟩, ⟨"a", some "r"⟩]

def exC5OkTree : OuTree :=
  ⟨[("r", ⟨"r", none⟩), ("a", ⟨"a", some "r"⟩)], [("r", ["a"])], ["r"]⟩

theorem maximalUniformSubtreeRoots_no_cycle_error_witness :
    maximalUniformSubtreeRoots exC5OkTree
      (fun _ => (none : Option EffectiveBudget)) equalBudgets ≠
      Except.error (PlanError.cycleAt "a") :=
  maximalUniformSubtreeRoots_no_cycle_error (by rfl : buildOuTree exC5OkOus =
      Except.ok exC5OkTree) (by rfl)
    (fun _ => (none : Option EffectiveBudget)) equalBudgets (PlanError.cycleAt "a")

/-! ## C3: characterization of the classifier result -/

/-- The spec's wording of the collection condition (section 4.4): the node
is `uniform`, and it is a root (no parent pointer), or its parent's status
is `mixed`, or its parent is `uniform` with a different value. -/
def SpecMaximalCond (tree : OuTree) (vals : String → Option V)
    (equals : Option V → Option V → Bool) (id : String) : Prop :=
  uniformAt tree vals equals id = true ∧
  ((∃ n, assocGet tree.byId id = some n ∧ n.parentId = none) ∨
   (∃ n pid, assocGet tree.byId id = some n ∧ n.parentId = some pid ∧
     (uniformAt tree vals equals pid = false ∨
      (uniformAt tree vals equals pid = true ∧
        equals (vals pid) (vals id) = false))))

/-- A tree whose adjacency mentions the id `c` that is not a node. -/
def exC3Tree : OuTree := ⟨[("r", ⟨"r", none⟩)], [("r", ["c"])], ["r"]⟩

/-- C3 counterexample: the classifier's result is collected from the status
memo, which covers every id reached through the `children` adjacency — on a
tree whose adjacency mentions an id that is not a node, that id is
returned, so the result is not the set of tree nodes the claim describes
(the sole satisfying node `r` is not even in the result). -/
theorem maximalUniformSubtreeRoots_nonnode_in_result :
    maximalUniformSubtreeRoots exC3Tree (fun _ => (none : Option EffectiveBudget))
      equalBudgets = Except.ok ["c"] ∧ "c" ∉ assocKeys exC3Tree.byId :=
  ⟨by rfl, by decide⟩

/-- C3 (amended): on a tree passing the executable well-formedness check,
`maximalUniformSubtreeRoots` succeeds and returns exactly the tree nodes
that are uniform and are a root, have a mixed-status parent, or have a
uniform parent with a different value; in particular a uniform node whose
parent is uniform with an `equals`-equal value is never in the result. -/
theorem maximalUniformSubtreeRoots_spec_characterization {tree : OuTree}
    (hwf : wfCheck tree = true) (vals : String → Option V)
    (equals : Option V → Option V → Bool) :
    ∃ res, maximalUniformSubtreeRoots tree vals equals = Except.ok res ∧
      ∀ id, id ∈ res ↔ id ∈ assocKeys tree.byId ∧
        SpecMaximalCond tree vals equals id := by
  obtain ⟨res, hres, hchar⟩ :=
    maximalUniformSubtreeRoots_wf_char (wfTree_of_check hwf) vals equals
  refine ⟨res, hres, ?_⟩
  intro id
  rw [hchar id]
  constructor
  · rintro ⟨hk, hm⟩
    have hu : uniformAt tree vals equals id = true := hm.1
    have hcond := hm.2
    refine ⟨hk, hu, ?_⟩
    obtain ⟨n, hby⟩ := assocGet_isSome_of_mem_keys hk
    cases hp : n.parentId with
    | none => exact Or.inl ⟨n, hby, hp⟩
    | some pid =>
      cases hup : uniformAt tree vals equals pid with
      | false => exact Or.inr ⟨n, pid, hby, hp, Or.inl hup⟩
      | true =>
        exact Or.inr ⟨n, pid, hby, hp, Or.inr ⟨hup, hcond n pid hby hp hup⟩⟩
  · rintro ⟨hk, hu, hcond⟩
    refine ⟨hk, hu, ?_⟩
    intro n pid hby hp hup
    rcases hcond with ⟨n', hby', hp'⟩ | ⟨n', pid', hby', hp', hcase⟩
    · rw [hby] at hby'
      injection hby' with hby'
      subst hby'
      rw [hp] at hp'
      exact Option.noConfusion hp'
    · rw [hby] at hby'
      injection hby' with hby'
      subst hby'
      rw [hp] at hp'
      injection hp' with hp'
      subst hp'
      rcases hcase with hmix | hdiff
      · rw [hup] at hmix
        exact Bool.noConfusion hmix
      · exact hdiff.2

def exC3WfTree : OuTree :=
  ⟨[("r", ⟨"r", none⟩), ("a", ⟨"a", some "r"⟩)], [("r", ["a"])], ["r"]⟩

theorem maximalUniformSubtreeRoots_spec_characterization_witness :
    ∃ res, maximalUniformSubtreeRoots exC3WfTree
        (fun _ => (none : Option EffectiveBudget)) equalBudgets = Except.ok res ∧
      ∀ id, id ∈ res ↔ id ∈ assocKeys exC3WfTree.byId ∧
        SpecMaximalCond exC3WfTree (fun _ => (none : Option EffectiveBudget))
          equalBudgets id :=
  maximalUniformSubtreeRoots_spec_characterization (by rfl)
    (fun _ => (none : Option EffectiveBudget)) equalBudgets

/-! ## C8: the equality predicate and region merging -/

/-- Inside a uniform subtree, every strictly-below node's value is
`equals`-equal to the subtree root's value (no reflexivity of `equals`
needed). -/
theorem uniform_strict_shares {tree : OuTree} (wf : WfTree tree)
    {vals : String → Option V} {equals : Option V → Option V → Bool}
    (htrans : ∀ a b c, equals a b = true → equals b c = true →
      equals a c = true)
    {t : String} (ht : t ∈ assocKeys tree.byId)
    (hu : uniformAt tree vals equals t = true) :
    ∀ y, Subtree tree t y → y ≠ t → equals (vals y) (vals t) = true := by
  intro y hs
  induction hs with
  | refl => intro h; exact absurd rfl h
  | @step p c hsub he ih =>
    intro _
    obtain ⟨dp, hdp⟩ := wf.chainTotal p (subtree_kept wf ht hsub)
    have hup : uniformAt tree vals equals p = true := by
      obtain ⟨dt, hdt⟩ := wf.chainTotal t ht
      exact uniformAt_subtree wf hsub hdt hu
    have hce := uniformAt_child wf hdp hup he
    by_cases hpt : p = t
    · subst hpt
      exact hce.2
    · exact htrans _ _ _ hce.2 (ih hpt)

/-- C8: `equalBudgets` on two present budgets holds iff amount, currency
and thresholds (normalized `?? []`, compared elementwise and
order-sensitively) all agree; a budget without an amount is never equal to
one with an amount; and consequently two OUs whose effective budgets share
amount and currency but differ in normalized thresholds are never merged
into the same maximal uniform region of `maximalUniformSubtreeRoots` — no
returned region root has both in its subtree. -/
theorem equalBudgets_characterization {tree : OuTree} (hwf : wfCheck tree = true)
    (budgets : List (String × EffectiveBudget)) (a b : EffectiveBudget) :
    (equalBudgets (some a) (some b) = true ↔
      a.amount = b.amount ∧ a.currency = b.currency ∧
        a.thresholds.getD [] = b.thresholds.getD []) ∧
    (a.amount = none → (∃ amt, b.amount = some amt) →
      equalBudgets (some a) (some b) = false ∧
      equalBudgets (some b) (some a) = false) ∧
    (∀ x y : String,
      assocGet budgets x = some a → assocGet budgets y = some b →
      a.amount = b.amount → a.currency = b.currency →
      a.thresholds.getD [] ≠ b.thresholds.getD [] →
      ∀ res t, maximalUniformSubtreeRoots tree
          (fun id => assocGet budgets id) equalBudgets = Except.ok res →
        t ∈ res → Subtree tree t x → Subtree tree t y → False) := by
  have wf := wfTree_of_check hwf
  refine ⟨equalBudgets_some_iff a b, ?_, ?_⟩
  · intro h1 h2
    obtain ⟨amt, h2⟩ := h2
    constructor
    · cases hE : equalBudgets (some a) (some b) with
      | false => rfl
      | true =>
        have := ((equalBudgets_some_iff a b).mp hE).1
        rw [h1, h2] at this
        exact absurd this (by exact fun h => Option.noConfusion h)
    · cases hE : equalBudgets (some b) (some a) with
      | false => rfl
      | true =>
        have := ((equalBudgets_some_iff b a).mp hE).1
        rw [h1, h2] at this
        exact absurd this (by exact fun h => Option.noConfusion h)
  · intro x y hax hby hamt hcur hthr res t hres htres hsx hsy
    obtain ⟨res', hres', hchar⟩ := maximalUniformSubtreeRoots_wf_char wf
      (fun id => assocGet budgets id) equalBudgets
    rw [hres] at hres'
    injection hres' with hres'
    subst hres'
    obtain ⟨htk, hmt⟩ := (hchar t).mp htres
    have hu : uniformAt tree (fun id => assocGet budgets id) equalBudgets t =
        true := hmt.1
    have key : ∀ z : String, ∀ c : EffectiveBudget, assocGet budgets z = some c →
        Subtree tree t z → equalBudgets (some c) (assocGet budgets t) = true := by
      intro z c hz hsz
      by_cases hzt : z = t
      · subst hzt
        rw [hz]
        exact equalBudgets_refl_some c
      · have hsh := uniform_strict_shares wf equalBudgets_trans htk hu z hsz hzt
        rw [hz] at hsh
        exact hsh
    have hka := key x a hax hsx
    have hkb := key y b hby hsy
    have hab : equalBudgets (some a) (some b) = true := by
      have h1 : equalBudgets (assocGet budgets t) (some b) = true := by
        rw [equalBudgets_symm]
        exact hkb
      exact equalBudgets_trans _ _ _ hka h1
    exact hthr ((equalBudgets_some_iff a b).mp hab).2.2

def exC8Tree : OuTree :=
  ⟨[("r", ⟨"r", none⟩), ("a", ⟨"a", some "r"⟩)], [("r", ["a"])], ["r"]⟩

def exC8Budgets : List (String × EffectiveBudget) :=
  [("r", ⟨some 10, "USD", some [50]⟩), ("a", ⟨some 10, "USD", some [80]⟩)]

theorem equalBudgets_characterization_witness :
    ((equalBudgets (some ⟨some 10, "USD", some [50]⟩)
        (some ⟨some 10, "USD", some [80]⟩) = true ↔
      (some (10 : Int) = some 10 ∧ "USD" = "USD" ∧
        (some [(50 : Int)]).getD [] = (some [(80 : Int)]).getD [])) ∧
    ((some (10 : Int) = none) → (∃ amt, some (10 : Int) = some amt) →
      equalBudgets (some ⟨some 10, "USD", some [50]⟩)
        (some ⟨some 10, "USD", some [80]⟩) = false ∧
      equalBudgets (some ⟨some 10, "USD", some [80]⟩)
        (some ⟨some 10, "USD", some [50]⟩) = false) ∧
    (∀ x y : String,
      assocGet exC8Budgets x = some ⟨some 10, "USD", some [50]⟩ →
      assocGet exC8Budgets y = some ⟨some 10, "USD", some [80]⟩ →
      some (10 : Int) = some 10 → "USD" = "USD" →
      (some [(50 : Int)]).getD [] ≠ (some [(80 : Int)]).getD [] →
      ∀ res t, maximalUniformSubtreeRoots exC8Tree
          (fun id => assocGet exC8Budgets id) equalBudgets = Except.ok res →
        t ∈ res → Subtree exC8Tree t x → Subtree exC8Tree t y → False)) :=
  equalBudgets_characterization (by rfl) exC8Budgets
    ⟨some 10, "USD", some [50]⟩ ⟨some 10, "USD", some [80]⟩

/-! ## C1: the attachment partition -/

/-- In a `buildOuTree` result every stored node with a null parent is
listed in `roots`. -/
theorem buildOuTree_root_complete {ous : List OuNode} {tree : OuTree}
    (hok : buildOuTree ous = Except.ok tree) :
    ∀ k n, assocGet tree.byId k = some n → n.parentId = none →
      k ∈ tree.roots := by
  intro k n hget hp
  by_cases hk : k = ""
  · subst hk
    rw [buildOuTree_ok_byId_empty hok] at hget
    exact Option.noConfusion hget
  · rw [buildOuTree_ok_byId hok k hk, lastOcc] at hget
    have hmem : n ∈ ous.reverse := List.mem_of_find?_eq_some hget
    have hid := List.find?_some hget
    simp only [beq_iff_eq] at hid
    rw [(buildOuTree_ok_roots hok).1, rootOccs, List.mem_map]
    refine ⟨n, ?_, hid⟩
    rw [List.mem_filter]
    refine ⟨List.mem_reverse.mp hmem, ?_⟩
    rw [Bool.and_eq_true]
    constructor
    · rw [bne_iff_ne]
      rw [hid]
      exact hk
    · rw [hp]
      rfl

/-- C1 (amended): for a successful run of the pipeline stages on a tree
accepted by `buildOuTree` and passing the well-formedness check:
(i) the attachment `ouId`s are pairwise distinct, and no attachment's OU is
an ancestor or descendant of another's (the subtrees never overlap);
(ii) every attachment's OU has an effective budget whose amount is exactly
the attachment's positive amount, and every OU in the attachment's subtree
carries an `equalBudgets`-equal (hence positive) effective budget;
(iii) every OU whose whole subtree is budget-uniform and whose effective
amount is positive lies in the subtree of exactly one attachment.  (The
claim's stronger coverage — every OU with a positive effective amount is
covered — is refuted by the counterexample below.) -/
theorem computeOuBudgetAttachments_partition {ous : List OuNode} {tree : OuTree}
    {config : BudgetConfig} {budgets : List (String × EffectiveBudget)}
    {H : List String} {atts : List OuBudgetAttachment}
    (hok : buildOuTree ous = Except.ok tree) (hwf : wfCheck tree = true)
    (hbud : computeEffectiveBudgets tree config = Except.ok budgets)
    (hH : maximalUniformSubtreeRoots tree (fun id => assocGet budgets id)
      equalBudgets = Except.ok H)
    (hsel : selectOuBudgetAttachments tree budgets H = Except.ok atts) :
    (atts.map (·.ouId)).Nodup ∧
    (∀ a ∈ atts, ∀ b ∈ atts, a ≠ b → ¬ Subtree tree a.ouId b.ouId) ∧
    (∀ a ∈ atts, ∃ eb, assocGet budgets a.ouId = some eb ∧
      eb.amount = some a.amount ∧ 0 < a.amount ∧
      ∀ y, Subtree tree a.ouId y →
        equalBudgets (assocGet budgets y) (some eb) = true) ∧
    (∀ y ∈ assocKeys tree.byId,
      uniformAt tree (fun id => assocGet budgets id) equalBudgets y = true →
      ∀ eb amt, assocGet budgets y = some eb → eb.amount = some amt →
        0 < amt →
      ∃ a ∈ atts, Subtree tree a.ouId y ∧
        ∀ b ∈ atts, Subtree tree b.ouId y → b = a) := by
  have wf := wfTree_of_check hwf
  obtain ⟨res', hres', hchar⟩ := maximalUniformSubtreeRoots_wf_char wf
    (fun id => assocGet budgets id) equalBudgets
  rw [hH] at hres'
  injection hres' with hres'
  subst hres'
  have hanti : ∀ t ∈ H, ∀ y, Subtree tree t y → y ≠ t → y ∉ H := by
    intro t htH y hsub hne hyH
    obtain ⟨htk, hmt⟩ := (hchar t).mp htH
    obtain ⟨-, hmy⟩ := (hchar y).mp hyH
    exact maximalCond_antichain wf equalBudgets_symm htk hmt hsub hne hmy
  obtain ⟨hroots1, hlen⟩ := buildOuTree_ok_roots hok
  obtain ⟨r, hroots⟩ := List.length_eq_one.mp hlen
  have hrk : r ∈ assocKeys tree.byId :=
    wf.rootsSub r (by rw [hroots]; exact List.mem_singleton.mpr rfl)
  obtain ⟨atts', hsel', hmem, hnd, hsub⟩ :=
    selectOuBudgetAttachments_ok wf budgets hanti hroots hrk
  rw [hsel] at hsel'
  injection hsel' with hsel'
  subst hsel'
  have hreach : ∀ k ∈ assocKeys tree.byId, Subtree tree r k := by
    intro k hk
    obtain ⟨dk, hdk⟩ := wf.chainTotal k hk
    exact reach_root wf hroots (buildOuTree_root_complete hok) dk k hdk
  have hattH : ∀ a ∈ atts, a.ouId ∈ H ∧ a ∈ attachIfPositive budgets a.ouId := by
    intro a ha
    obtain ⟨t, htH, -, hat⟩ := (hmem a).mp ha
    have hid := attachIfPositive_ouId hat
    subst hid
    exact ⟨htH, hat⟩
  refine ⟨hnd, ?_, ?_, ?_⟩
  · intro a ha b hb hne hsab
    obtain ⟨haH, -⟩ := hattH a ha
    obtain ⟨hbH, -⟩ := hattH b hb
    have hneid : b.ouId ≠ a.ouId := by
      intro he
      exact hne (nodup_map_inj hnd a ha b hb he.symm)
    exact (hanti a.ouId haH b.ouId hsab hneid) hbH
  · intro a ha
    obtain ⟨haH, hat⟩ := hattH a ha
    obtain ⟨hak, hma⟩ := (hchar a.ouId).mp haH
    have hu : uniformAt tree (fun id => assocGet budgets id) equalBudgets
        a.ouId = true := hma.1
    rw [attachIfPositive] at hat
    cases hvb : assocGet budgets a.ouId with
    | none => rw [hvb] at hat; simp at hat
    | some eb =>
      rw [hvb] at hat
      cases hamt : eb.amount with
      | none => simp only [hamt] at hat; simp at hat
      | some amt =>
        simp only [hamt] at hat
        by_cases hc : (amt ≠ 0 && amt > 0) = true
        · rw [if_pos hc, List.mem_singleton] at hat
          have hpos : 0 < amt := by
            rw [Bool.and_eq_true, decide_eq_true_eq, decide_eq_true_eq] at hc
            exact hc.2
          refine ⟨eb, rfl, ?_, ?_, ?_⟩
          · rw [hat]
            exact hamt
          · rw [hat]
            exact hpos
          · intro y hsy
            by_cases hya : y = a.ouId
            · subst hya
              rw [hvb]
              exact equalBudgets_refl_some eb
            · have hsh := uniform_strict_shares wf equalBudgets_trans hak hu
                y hsy hya
              have hsh' : equalBudgets (assocGet budgets y)
                  (assocGet budgets a.ouId) = true := hsh
              rw [hvb] at hsh'
              exact hsh'
        · rw [if_neg hc] at hat
          simp at hat
  · intro y hyk hu eb amt hyb hamt hpos
    obtain ⟨dy, hdy⟩ := wf.chainTotal y hyk
    have hself : equalBudgets (assocGet budgets y) (assocGet budgets y) =
        true := by
      rw [hyb]
      exact equalBudgets_refl_some eb
    obtain ⟨t, htk, hmt, hts, hte⟩ := climb_to_maximal wf equalBudgets_symm
      equalBudgets_trans dy y hdy hu hself
    have hte' : equalBudgets (assocGet budgets t) (assocGet budgets y) =
        true := hte
    have htH : t ∈ H := (hchar t).mpr ⟨htk, hmt⟩
    cases hvt : assocGet budgets t with
    | none =>
      rw [hvt, equalBudgets_none_left] at hte'
      exact absurd hte' Bool.false_ne_true
    | some ebt =>
      rw [hvt, hyb] at hte'
      obtain ⟨hteq, -, -⟩ := (equalBudgets_some_iff ebt eb).mp hte'
      have hamtT : ebt.amount = some amt := by
        rw [hteq, hamt]
      have hcond : (amt ≠ 0 && amt > 0) = true := by
        rw [Bool.and_eq_true, decide_eq_true_eq, decide_eq_true_eq]
        exact ⟨by omega, hpos⟩
      have hattach : attachIfPositive budgets t =
          [⟨t, amt, ebt.currency, ebt.thresholds⟩] := by
        rw [attachIfPositive]
        simp only [hvt, hamtT, hcond, if_true]
      have haT : (⟨t, amt, ebt.currency, ebt.thresholds⟩ :
          OuBudgetAttachment) ∈ atts :=
        (hmem _).mpr ⟨t, htH, hreach t htk,
          by rw [hattach]; exact List.mem_singleton.mpr rfl⟩
      refine ⟨⟨t, amt, ebt.currency, ebt.thresholds⟩, haT, hts, ?_⟩
      intro b hb hsby
      obtain ⟨hbH, -⟩ := hattH b hb
      rcases ancestors_comparable wf hsby hts with hc1 | hc1
      · by_cases hbt : t = b.ouId
        · exact nodup_map_inj hnd b hb _ haT hbt.symm
        · exact absurd htH (hanti b.ouId hbH t hc1 hbt)
      · by_cases hbt : b.ouId = t
        · exact nodup_map_inj hnd b hb _ haT hbt
        · exact absurd hbH (hanti t htH b.ouId hc1 hbt)

def exC1Ous : List OuNode :=
  [⟨"root", none⟩, ⟨"x", some "root"⟩, ⟨"y", some "root"⟩]

def exC1Cfg : BudgetConfig :=
  ⟨⟨some 10, "USD", none⟩, some [("x", some ⟨some 20, none, none⟩)]⟩

def exC1Tree : OuTree :=
  ⟨[("root", ⟨"root", none⟩), ("x", ⟨"x", some "root"⟩),
    ("y", ⟨"y", some "root"⟩)],
   [("root", ["x", "y"])], ["root"]⟩

def exC1Budgets : List (String × EffectiveBudget) :=
  [("root", ⟨some 10, "USD", none⟩), ("x", ⟨some 20, "USD", none⟩),
   ("y", ⟨some 10, "USD", none⟩)]

/-- C1 counterexample: a successful pipeline run in which the root OU has a
positive effective budget (10 USD) yet lies in no attachment's subtree —
the attachments' union does not cover every OU with a positive effective
budget (matching the spec's own Scenario C). -/
theorem computeOuBudgetAttachments_coverage_fails :
    computeOuBudgetAttachments exC1Ous exC1Cfg = Except.ok
      [⟨"x", 20, "USD", none⟩, ⟨"y", 10, "USD", none⟩] ∧
    buildOuTree exC1Ous = Except.ok exC1Tree ∧
    computeEffectiveBudgets exC1Tree exC1Cfg = Except.ok exC1Budgets ∧
    assocGet exC1Budgets "root" = some ⟨some 10, "USD", none⟩ ∧
    ¬ Subtree exC1Tree "x" "root" ∧ ¬ Subtree exC1Tree "y" "root" := by
  refine ⟨by rfl, by rfl, by rfl, by rfl, ?_, ?_⟩
  · intro h
    have hle := subtree_dist_le (wfTree_of_check (by rfl)) h
      (show HasDist exC1Tree "x" 1 from rfl)
      (show HasDist exC1Tree "root" 0 from rfl)
    omega
  · intro h
    have hle := subtree_dist_le (wfTree_of_check (by rfl)) h
      (show HasDist exC1Tree "y" 1 from rfl)
      (show HasDist exC1Tree "root" 0 from rfl)
    omega

def exC1WOus : List OuNode := [⟨"r", none⟩, ⟨"a", some "r"⟩, ⟨"b", some "r"⟩]

def exC1WCfg : BudgetConfig :=
  ⟨⟨some 10, "USD", none⟩, some [("a", some ⟨none, none, none⟩)]⟩

def exC1WTree : OuTree :=
  ⟨[("r", ⟨"r", none⟩), ("a", ⟨"a", some "r"⟩), ("b", ⟨"b", some "r"⟩)],
   [("r", ["a", "b"])], ["r"]⟩

def exC1WBudgets : List (String × EffectiveBudget) :=
  [("r", ⟨some 10, "USD", none⟩), ("a", ⟨none, "NONE", none⟩),
   ("b", ⟨some 10, "USD", none⟩)]

theorem computeOuBudgetAttachments_partition_witness :
    (([(⟨"b", 10, "USD", none⟩ : OuBudgetAttachment)].map (·.ouId)).Nodup ∧
    (∀ a ∈ [(⟨"b", 10, "USD", none⟩ : OuBudgetAttachment)],
      ∀ b ∈ [(⟨"b", 10, "USD", none⟩ : OuBudgetAttachment)], a ≠ b →
        ¬ Subtree exC1WTree a.ouId b.ouId) ∧
    (∀ a ∈ [(⟨"b", 10, "USD", none⟩ : OuBudgetAttachment)],
      ∃ eb, assocGet exC1WBudgets a.ouId = some eb ∧
      eb.amount = some a.amount ∧ 0 < a.amount ∧
      ∀ y, Subtree exC1WTree a.ouId y →
        equalBudgets (assocGet exC1WBudgets y) (some eb) = true) ∧
    (∀ y ∈ assocKeys exC1WTree.byId,
      uniformAt exC1WTree (fun id => assocGet exC1WBudgets id) equalBudgets
        y = true →
      ∀ eb amt, assocGet exC1WBudgets y = some eb → eb.amount = some amt →
        0 < amt →
      ∃ a ∈ [(⟨"b", 10, "USD", none⟩ : OuBudgetAttachment)],
        Subtree exC1WTree a.ouId y ∧
        ∀ b ∈ [(⟨"b", 10, "USD", none⟩ : OuBudgetAttachment)],
          Subtree exC1WTree b.ouId y → b = a)) :=
  computeOuBudgetAttachments_partition
    (by rfl : buildOuTree exC1WOus = Except.ok exC1WTree) (by rfl)
    (by rfl : computeEffectiveBudgets exC1WTree exC1WCfg =
      Except.ok exC1WBudgets)
    (by rfl : maximalUniformSubtreeRoots exC1WTree
      (fun id => assocGet exC1WBudgets id) equalBudgets =
      Except.ok ["a", "b"])
    (by rfl : selectOuBudgetAttachments exC1WTree exC1WBudgets ["a", "b"] =
      Except.ok [⟨"b", 10, "USD", none⟩])

/-! ## C4: disabled-sibling isolation -/

/-- C4 (amended): changing one OU `d`'s config entry — for instance setting
it to the explicit disable `{ amount: null }` — never changes the effective
budget of any OU outside `d`'s subtree, in particular of any OU in a
sibling subtree, because resolution only walks the OU's own ancestor
chain.  (The claim's further assertion that the attachment outcome of
sibling subtrees is also unchanged is refuted by the counterexample
below.) -/
theorem disable_isolates_effective_budgets {ous : List OuNode} {tree : OuTree}
    {c1 c2 : BudgetConfig} {e1 e2 : List (String × Option OuBudgetConfigEntry)}
    {d : String} {m1 m2 : List (String × EffectiveBudget)}
    ( _hok : buildOuTree ous = Except.ok tree) (hwf : wfCheck tree = true)
    (h1 : c1.organizationalUnits = some e1)
    (h2 : c2.organizationalUnits = some e2)
    (hdef : c1.defaultBudget = c2.defaultBudget)
    (hagree : ∀ y, y ≠ d → (assocGet e1 y).join = (assocGet e2 y).join)
    (hm1 : computeEffectiveBudgets tree c1 = Except.ok m1)
    (hm2 : computeEffectiveBudgets tree c2 = Except.ok m2) :
    ∀ y ∈ assocKeys tree.byId, ¬ Subtree tree d y →
      assocGet m1 y = assocGet m2 y := by
  have wf := wfTree_of_check hwf
  intro y hyk hnsub
  obtain ⟨b1, hb1⟩ := computeEffectiveBudgets_get_isSome hm1 hyk
  obtain ⟨b2, hb2⟩ := computeEffectiveBudgets_get_isSome hm2 hyk
  have hr1 := computeEffectiveBudgets_get hm1 hb1
  have hr2 := computeEffectiveBudgets_get hm2 hb2
  have hchain : ∀ k z, parentIter tree k y = some z → ¬ (z = d) := by
    intro k z hk hz
    subst hz
    exact hnsub (parentIter_to_subtree wf hk)
  have hcong := resolveBudget_entries_congr h1 h2 hdef (fun z => z = d)
    (fun z hz => hagree z hz) (tree.byId.length + 1) y hchain
  rw [hr1, hr2] at hcong
  injection hcong with hcong
  rw [hb1, hb2, hcong]

def exC4Ous : List OuNode := [⟨"r", none⟩, ⟨"d", some "r"⟩, ⟨"s", some "r"⟩]

def exC4Cfg1 : BudgetConfig := ⟨⟨some 10, "USD", none⟩, some []⟩

def exC4Cfg2 : BudgetConfig :=
  ⟨⟨some 10, "USD", none⟩, some [("d", some ⟨none, none, none⟩)]⟩

def exC4Tree : OuTree :=
  ⟨[("r", ⟨"r", none⟩), ("d", ⟨"d", some "r"⟩), ("s", ⟨"s", some "r"⟩)],
   [("r", ["d", "s"])], ["r"]⟩

/-- C4 counterexample: the two configs agree except that the second
disables the OU `d` (`amount: null`); the OU `s` lies in a sibling subtree
of `d` (outside `d`'s subtree), yet the attachment outcome for `s`'s
subtree changes between the runs: without the disable no attachment is
created at any node of `s`'s subtree (the only attachment sits at the root
`r`), while with the disable an attachment appears at `s` itself. -/
theorem disabled_sibling_attachment_changes :
    computeOuBudgetAttachments exC4Ous exC4Cfg1 =
      Except.ok [⟨"r", 10, "USD", none⟩] ∧
    computeOuBudgetAttachments exC4Ous exC4Cfg2 =
      Except.ok [⟨"s", 10, "USD", none⟩] ∧
    exC4Cfg1.defaultBudget = exC4Cfg2.defaultBudget ∧
    (∀ y, y ≠ "d" →
      (assocGet ([] : List (String × Option OuBudgetConfigEntry)) y).join =
      (assocGet [("d", some (⟨none, none, none⟩ : OuBudgetConfigEntry))]
        y).join) ∧
    ¬ Subtree exC4Tree "d" "s" ∧
    List.filter (fun a => a.ouId == "s")
      [(⟨"r", 10, "USD", none⟩ : OuBudgetAttachment)] = [] ∧
    List.filter (fun a => a.ouId == "s")
      [(⟨"s", 10, "USD", none⟩ : OuBudgetAttachment)] =
      [⟨"s", 10, "USD", none⟩] := by
  refine ⟨by rfl, by rfl, by rfl, ?_, ?_, by rfl, by rfl⟩
  · intro y hy
    have h2 : assocGet [("d", some (⟨none, none, none⟩ :
        OuBudgetConfigEntry))] y = none := by
      simp [assocGet, Ne.symm hy]
    rw [h2]
    rfl
  · intro h
    have heq := subtree_dist_eq (wfTree_of_check (by rfl)) h
      (show HasDist exC4Tree "d" 1 from rfl)
      (show HasDist exC4Tree "s" 1 from rfl) rfl
    exact absurd heq (by decide)

def exC4M1 : List (String × EffectiveBudget) :=
  [("r", ⟨some 10, "USD", none⟩), ("d", ⟨some 10, "USD", none⟩),
   ("s", ⟨some 10, "USD", none⟩)]

def exC4M2 : List (String × EffectiveBudget) :=
  [("r", ⟨some 10, "USD", none⟩), ("d", ⟨none, "NONE", none⟩),
   ("s", ⟨some 10, "USD", none⟩)]

theorem disable_isolates_effective_budgets_witness :
    assocGet exC4M1 "s" = assocGet exC4M2 "s" :=
  @disable_isolates_effective_budgets exC4Ous exC4Tree exC4Cfg1 exC4Cfg2
    [] [("d", some ⟨none, none, none⟩)] "d" exC4M1 exC4M2
    (by rfl) (by rfl) rfl rfl (by rfl)
    (fun y hy => by simp [assocGet, Ne.symm hy])
    (by rfl) (by rfl)
    "s" (by decide)
    (fun h => absurd (subtree_dist_eq (wfTree_of_check (by rfl)) h
      (show HasDist exC4Tree "d" 1 from rfl)
      (show HasDist exC4Tree "s" 1 from rfl) rfl) (by decide))

end BudgetAlerts
